import Mathlib

/-!
Verification development for the sprite-sheet packer in `src/glue.py`.

The program is embedded shallowly:

* `Rect` / `Tree` model the geometry fields and the reachable shapes of the
  mutable `Node` objects (a node with `used=False` never has children; `split`
  and the grow operations always give a `used=True` node both children).
* `Tree.find` mirrors `Node.find`; `Tree.place` performs `find` followed by
  `Node.split` on the found leaf as one functional tree update (the Python code
  mutates the found node in place).  `Tree.growRight`, `Tree.growDown` and
  `Tree.grow` mirror the corresponding `Node` methods, `runPlace` mirrors the
  placement loop of `Sprite.process`.
* Python integers are modelled by `Int`; image dimensions are nonnegative,
  which appears as explicit hypotheses where needed.
-/

namespace Glue

/-- Geometry fields `x`, `y`, `width`, `height` of a `Node` in `glue.py`. -/
structure Rect where
  x : Int
  y : Int
  w : Int
  h : Int
  deriving DecidableEq

/-- Reachable shapes of the mutable `Node` graph of `glue.py`: a `leaf` is a
node with `used=False` (such nodes never have children — `Node.__init__`
defaults, and `split`/`grow_right`/`grow_down` set both children exactly when
they mark a node used), a `node` is a `used=True` node with its `right` and
`down` children. -/
inductive Tree where
  | leaf (r : Rect)
  | node (r : Rect) (right : Tree) (down : Tree)
  deriving DecidableEq

/-- Rectangle of the tree's root node. -/
def Tree.rect : Tree → Rect
  | .leaf r => r
  | .node r _ _ => r

/-- Mirror of `Node.find`: on a used node search `right` first, then `down`
(Python's `or`); a free node is returned iff `node.width >= width and
node.height >= height`.  The returned value is the found node's rectangle. -/
def Tree.find : Tree → Int → Int → Option Rect
  | .node _ right down, w, h =>
    match right.find w h with
    | some n => some n
    | none => down.find w h
  | .leaf r, w, h => if w ≤ r.w ∧ h ≤ r.h then some r else none

/-- Mirror of `Node.find` followed by `Node.split` on the found node, as one
functional update.  `split` marks the found node used and attaches
`down = Node(node.x, node.y + height, node.width, node.height - height)` and
`right = Node(node.x + width, node.y, node.width - width, height)`.  The
second component is the placed rectangle: the found node's origin with the
requested size (`split` returns the node itself, which now represents the
`width × height` placement at `(node.x, node.y)`). -/
def Tree.place : Tree → Int → Int → Option (Tree × Rect)
  | .leaf r, w, h =>
    if w ≤ r.w ∧ h ≤ r.h then
      some (.node r (.leaf ⟨r.x + w, r.y, r.w - w, h⟩) (.leaf ⟨r.x, r.y + h, r.w, r.h - h⟩),
            ⟨r.x, r.y, w, h⟩)
    else none
  | .node r right down, w, h =>
    match right.place w h with
    | some (right2, p) => some (.node r right2 down, p)
    | none =>
      match down.place w h with
      | some (down2, p) => some (.node r right down2, p)
      | none => none

/-- Mirror of `Node.grow_right`: the old root becomes the `down` child of a
new used root of size `(width+w) × height`, the `right` child is a fresh leaf
at `(old width, 0)` of size `w × height`; then `find`+`split` is re-run on the
new root.  When the re-run `find` fails the Python method returns `None` while
the mutation of the root persists, hence the grown tree is kept with no
placement. -/
def Tree.growRight (t : Tree) (w h : Int) : Tree × Option Rect :=
  let r := t.rect
  let t2 : Tree := .node ⟨0, 0, r.w + w, r.h⟩ (.leaf ⟨r.w, 0, w, r.h⟩) t
  match t2.place w h with
  | some (t3, p) => (t3, some p)
  | none => (t2, none)

/-- Mirror of `Node.grow_down`: the old root becomes the `right` child of a
new used root of size `width × (height+h)`, the `down` child is a fresh leaf
at `(0, old height)` of size `width × h`; then `find`+`split` is re-run. -/
def Tree.growDown (t : Tree) (w h : Int) : Tree × Option Rect :=
  let r := t.rect
  let t2 : Tree := .node ⟨0, 0, r.w, r.h + h⟩ t (.leaf ⟨0, r.h, r.w, h⟩)
  match t2.place w h with
  | some (t3, p) => (t3, some p)
  | none => (t2, none)

/-- Mirror of `Node.grow`: with `can_grow_d = width <= self.width`,
`can_grow_r = height <= self.height`, `should_grow_r = can_grow_r and
self.height >= self.width + width`, `should_grow_d = can_grow_d and
self.width >= self.height + height`, choose `grow_right` / `grow_down` /
`grow_right` / `grow_down` in that order, else return `None` (modelled as the
unchanged tree with no placement). -/
def Tree.grow (t : Tree) (w h : Int) : Tree × Option Rect :=
  if h ≤ t.rect.h ∧ t.rect.h ≥ t.rect.w + w then t.growRight w h
  else if w ≤ t.rect.w ∧ t.rect.w ≥ t.rect.h + h then t.growDown w h
  else if h ≤ t.rect.h then t.growRight w h
  else if w ≤ t.rect.w then t.growDown w h
  else (t, none)

/-- One iteration of the placement loop in `Sprite.process`: try
`root.find` + `root.split` (fused in `Tree.place`); if `find` fails, grow. -/
def Tree.placeStep (t : Tree) (s : Int × Int) : Tree × Option Rect :=
  match t.place s.1 s.2 with
  | some (t2, p) => (t2, some p)
  | none => t.grow s.1 s.2

/-- The placement loop of `Sprite.process` over the ordered image sizes:
returns the final tree and, for each image, the rectangle assigned to
`image.node` (`none` when `grow` returned `None`, which `Sprite.process`
stores silently). -/
def runPlace : Tree → List (Int × Int) → Tree × List (Option Rect)
  | t, [] => (t, [])
  | t, s :: rest =>
    let step := t.placeStep s
    let next := runPlace step.1 rest
    (next.1, step.2 :: next.2)

/-- Mirror of `Sprite.process` at the geometry level: the root is created with
the first image's (effective) size, then every image — the first included —
is placed by the loop.  `Sprite.process` is never invoked on an empty image
list (`_locate_images` raises first), hence the `Option`. -/
def processSprite : List (Int × Int) → Option (Tree × List (Option Rect))
  | [] => none
  | s :: rest => some (runPlace (.leaf ⟨0, 0, s.1, s.2⟩) (s :: rest))

/-- Integer points covered by a rectangle (unit pixels, half-open). -/
def pts (r : Rect) : Set (Int × Int) :=
  {p | r.x ≤ p.1 ∧ p.1 < r.x + r.w ∧ r.y ≤ p.2 ∧ p.2 < r.y + r.h}

/-- Two rectangles overlap when both are nonempty and their coordinate ranges
intersect on both axes (equivalently: they share an integer point, see
`overlaps_iff_pts`). -/
def Rect.overlaps (a b : Rect) : Prop :=
  0 < a.w ∧ 0 < a.h ∧ 0 < b.w ∧ 0 < b.h ∧
  a.x < b.x + b.w ∧ b.x < a.x + a.w ∧ a.y < b.y + b.h ∧ b.y < a.y + a.h

instance (a b : Rect) : Decidable (a.overlaps b) := by
  unfold Rect.overlaps; infer_instance

/-- Well-formedness of reachable trees: each used node's children lie inside
it and do not overlap each other.  This invariant is established by `split`
(whose children partition the free part of the split node) and by the grow
operations (old root and new strip are side by side). -/
def Tree.wf : Tree → Prop
  | .leaf _ => True
  | .node r right down =>
    right.wf ∧ down.wf ∧ pts right.rect ⊆ pts r ∧ pts down.rect ⊆ pts r ∧
      Disjoint (pts right.rect) (pts down.rect)

/-- Points still available for placement: union of the free leaves. -/
def Tree.freeSet : Tree → Set (Int × Int)
  | .leaf r => pts r
  | .node _ right down => right.freeSet ∪ down.freeSet

/-- Points of an optional placement. -/
def optPts : Option Rect → Set (Int × Int)
  | none => ∅
  | some p => pts p

/-- State invariant carried through the placement loop: the tree is
well-formed, rooted at the origin with nonnegative extent, every already
placed rectangle lies inside the root's rectangle and is disjoint from the
remaining free region, and the placed rectangles are pairwise disjoint. -/
def StInv (t : Tree) (placed : List Rect) : Prop :=
  t.wf ∧ t.rect.x = 0 ∧ t.rect.y = 0 ∧ 0 ≤ t.rect.w ∧ 0 ≤ t.rect.h ∧
    (∀ q ∈ placed, pts q ⊆ pts t.rect ∧ Disjoint (pts q) t.freeSet) ∧
    placed.Pairwise fun a b => Disjoint (pts a) (pts b)

/-- What one loop iteration guarantees: the new tree is well-formed, rooted
at the origin, its rectangle extends the old one by some fresh region `S`
outside the old rectangle, the optional placement was carved out of the old
free region together with `S`, and the new free region avoids the
placement. -/
def StepOk (t t2 : Tree) (op : Option Rect) : Prop :=
  ∃ S : Set (Int × Int),
    t2.wf ∧ t2.rect.x = 0 ∧ t2.rect.y = 0 ∧ 0 ≤ t2.rect.w ∧ 0 ≤ t2.rect.h ∧
      pts t.rect ⊆ pts t2.rect ∧ Disjoint S (pts t.rect) ∧ S ⊆ pts t2.rect ∧
      optPts op ⊆ t.freeSet ∪ S ∧ t2.freeSet ⊆ (t.freeSet ∪ S) \ optPts op

/-! Filenames and padding.  Filename stems are modelled as `List Char`
(`String.data`); Python `int` values as `Int`. -/

/-- Mirror of Python `str.split(sep)` for a one-character separator: split on
every occurrence, keeping empty parts.  Used for `padding_info.split('-')`
and (with `'_'`, taking the last part) for `filename.rsplit('_', 1)[-1]`. -/
def splitOnChar (c : Char) : List Char → List (List Char)
  | [] => [[]]
  | ch :: rest =>
    match splitOnChar c rest with
    | [] => [[]]
    | p :: ps => if ch = c then [] :: p :: ps else (ch :: p) :: ps

/-- Mirror of `self.filename.rsplit('_', 1)[-1]`: the part of the stem after
its last underscore; the whole stem when it has no underscore. -/
def afterLastUnderscore (stem : List Char) : List Char :=
  (splitOnChar '_' stem).getLastD []

/-- Matcher for the regular expression `^(\d+-?){,4}\d+$` used by
`Image._padding_info` (with `k` the remaining allowance of `{,4}` groups,
so the regex itself is `matchNums 4`).  Because `\d+` is greedy and a group's
dash is optional, a string matches iff it decomposes as maximal digit runs
separated by single dashes, each dash consuming one group allowance; this
matcher takes the maximal digit run, then either ends, or consumes a dash
and recurses. -/
def matchNums (k : Nat) (cs : List Char) : Bool :=
  if (cs.takeWhile Char.isDigit).isEmpty then false
  else
    match cs.dropWhile Char.isDigit with
    | [] => true
    | c :: rest2 =>
      if c = '-' then
        match k with
        | 0 => false
        | k2 + 1 => matchNums k2 rest2
      else false

/-- Mirror of `Image._padding_info`: the part of the stem after the last
underscore, split on dashes, when it matches `^(\d+-?){,4}\d+$`; else `[]`. -/
def paddingInfo (stem : List Char) : List (List Char) :=
  if matchNums 4 (afterLastUnderscore stem) then
    splitOnChar '-' (afterLastUnderscore stem)
  else []

/-- Python whitespace characters recognised by `str.split()`. -/
def isSpace (c : Char) : Bool :=
  c = ' ' ∨ c = '\t' ∨ c = '\n' ∨ c = '\r' ∨ c = '\x0b' ∨ c = '\x0c'

/-- Helper for `splitWs` carrying the (reversed) current token. -/
def splitWsGo : List Char → List Char → List (List Char)
  | cur, [] => if cur = [] then [] else [cur.reverse]
  | cur, c :: rest =>
    if isSpace c then
      if cur = [] then splitWsGo [] rest else cur.reverse :: splitWsGo [] rest
    else splitWsGo (c :: cur) rest

/-- Mirror of Python `str.split()` (no argument): split on runs of
whitespace, discarding empty tokens. -/
def splitWs (s : List Char) : List (List Char) :=
  splitWsGo [] s

/-- Mirror of `padding.replace('px', '')`: remove the non-overlapping
occurrences of `px`, scanning left to right. -/
def removePx : List Char → List Char
  | 'p' :: 'x' :: rest => removePx rest
  | c :: rest => c :: removePx rest
  | [] => []

/-- Numeric value of a digit string (most significant first). -/
def digitsVal : List Char → Int → Int
  | [], acc => acc
  | c :: rest, acc => digitsVal rest (acc * 10 + ((c.toNat : Int) - 48))

/-- Model of Python `int(token)` on the tokens reaching `map(int, padding)`:
an optional sign followed by a nonempty digit run parses, anything else
raises `ValueError` (modelled as `none`). -/
def parseIntTok (s : List Char) : Option Int :=
  match s with
  | [] => none
  | c :: rest =>
    if c = '-' then
      if rest ≠ [] ∧ rest.all Char.isDigit then some (-(digitsVal rest 0)) else none
    else if c = '+' then
      if rest ≠ [] ∧ rest.all Char.isDigit then some (digitsVal rest 0) else none
    else if (c :: rest).all Char.isDigit then some (digitsVal (c :: rest) 0) else none

/-- Errors that `Image._generate_padding` can raise: the `len == 0` branch
references `self.DEFAULT_PADDING`, an attribute defined nowhere on `Image`
(an `AttributeError`); `map(int, ...)` raises `ValueError` on a non-numeric
token. -/
inductive PadError where
  | attributeErrorDefaultPadding
  | valueErrorInt
  deriving DecidableEq

instance {ε α : Type} [DecidableEq ε] [DecidableEq α] : DecidableEq (Except ε α) :=
  fun a b =>
    match a, b with
    | .ok x, .ok y => if h : x = y then .isTrue (by rw [h]) else .isFalse (by simp [h])
    | .error x, .error y => if h : x = y then .isTrue (by rw [h]) else .isFalse (by simp [h])
    | .ok _, .error _ => .isFalse (by simp)
    | .error _, .ok _ => .isFalse (by simp)

/-- Mirror of `map(int, padding)` over the token list. -/
def mapInts : List (List Char) → Except PadError (List Int)
  | [] => .ok []
  | s :: rest =>
    match parseIntTok s, mapInts rest with
    | some v, .ok vs => .ok (v :: vs)
    | some _, .error e => .error e
    | none, _ => .error .valueErrorInt

/-- Core of `Image._generate_padding` after the string branch: the CSS-like
length expansion (`3 → pad + [pad[1]]`, `2 → pad * 2`, `1 → pad * 4`,
`0 → [self.DEFAULT_PADDING] * 4`, which raises) followed by `map(int, ...)`.
Lists of any other length (Python reaches these with a five-number filename
suffix) fall through unexpanded. -/
def generatePaddingList (padding : List (List Char)) : Except PadError (List Int) :=
  if padding.length = 3 then mapInts (padding ++ [padding.getD 1 []])
  else if padding.length = 2 then mapInts (padding ++ padding)
  else if padding.length = 1 then mapInts (padding ++ padding ++ padding ++ padding)
  else if padding.length = 0 then .error .attributeErrorDefaultPadding
  else mapInts padding

/-- Argument of `Image._generate_padding`: either the raw configured padding
string or the token list from the filename. -/
inductive PadArg where
  | ofString (s : List Char)
  | ofList (l : List (List Char))

/-- Mirror of `Image._generate_padding`: a string argument is first stripped
of `px` and split on whitespace. -/
def generatePadding : PadArg → Except PadError (List Int)
  | .ofString s => generatePaddingList (splitWs (removePx s))
  | .ofList l => generatePaddingList l

/-- Mirror of the `Image.padding` property: use the filename-derived tokens
unless there are none or `--ignore-filename-paddings` is set, in which case
the configured padding string is used. -/
def imagePadding (stem : List Char) (confPadding : List Char) (ignoreFP : Bool) :
    Except PadError (List Int) :=
  if (paddingInfo stem).length = 0 ∨ ignoreFP = true then
    generatePadding (.ofString confPadding)
  else generatePadding (.ofList (paddingInfo stem))

/-- Characters kept by `re.sub(r'[^\w\-\_]', '', name)` under Python 2's
default ASCII `\w`: alphanumerics, `-` and `_`. -/
def isClassChar (c : Char) : Bool :=
  c.isAlphanum ∨ c = '-' ∨ c = '_'

/-- Mirror of `'-'.join(parts)`. -/
def joinDash : List (List Char) → List Char
  | [] => []
  | [p] => p
  | p :: q :: rest => p ++ '-' :: joinDash (q :: rest)

/-- Mirror of the `Image.class_name` property: unless filename paddings are
ignored, strip the consumed padding suffix (with its `_`) from the stem, then
delete every character outside `[\w\-\_]`, and prepend
`"{namespace}-{spriteName}-"` (`Sprite.namespace` is
`"{conf namespace}-{sprite name}"`). -/
def classNameOf (stem : List Char) (ignoreFP : Bool) (nsConf spriteName : List Char) :
    List Char :=
  let base :=
    if ignoreFP then stem
    else
      let pin := joinDash (paddingInfo stem)
      let pinName := if pin = [] then [] else '_' :: pin
      if pinName.length = 0 then stem else stem.take (stem.length - pinName.length)
  (nsConf ++ '-' :: spriteName) ++ '-' :: base.filter isClassChar

/-! Sorting.  `sorted(images, reverse=True)` is CPython's list sort, which
for fewer than 64 elements is: detect one initial run (strictly descending —
then reversed — or weakly ascending), then insert the remaining elements by
binary insertion; `reverse=True` is implemented by reversing the list before
and after an ascending sort.  All comparisons call `Image.__lt__`. -/

/-- CPython `binarysort` search: smallest index `i` in `[l, r)` with
`lt pivot a[i]` (so the pivot lands after equal elements). -/
def binPos (lt : α → α → Bool) (pivot : α) (a : List α) (l r : Nat) : Nat :=
  if hlr : l < r then
    let mid := (l + r) / 2
    if lt pivot (a.getD mid pivot) then binPos lt pivot a l mid
    else binPos lt pivot a (mid + 1) r
  else l
termination_by r - l
decreasing_by
  all_goals omega

/-- Insert `x` into the list at position `n`. -/
def insertAt (l : List α) (n : Nat) (x : α) : List α :=
  l.take n ++ x :: l.drop n

/-- One binary-insertion step of CPython `binarysort`. -/
def binInsert (lt : α → α → Bool) (pre : List α) (x : α) : List α :=
  insertAt pre (binPos lt x pre 0 pre.length) x

/-- Maximal weakly ascending run (continue while not `lt next cur`). -/
def runAsc (lt : α → α → Bool) : α → List α → List α × List α
  | cur, [] => ([cur], [])
  | cur, nxt :: rest =>
    if lt nxt cur then ([cur], nxt :: rest)
    else
      let pr := runAsc lt nxt rest
      (cur :: pr.1, pr.2)

/-- Maximal strictly descending run (continue while `lt next cur`). -/
def runDesc (lt : α → α → Bool) : α → List α → List α × List α
  | cur, [] => ([cur], [])
  | cur, nxt :: rest =>
    if lt nxt cur then
      let pr := runDesc lt nxt rest
      (cur :: pr.1, pr.2)
    else ([cur], nxt :: rest)

/-- CPython `list.sort()` (ascending, comparisons via `lt`) for lists of
fewer than 64 elements: one detected run, binary insertion for the rest. -/
def pySort (lt : α → α → Bool) : List α → List α
  | [] => []
  | [a] => [a]
  | a :: b :: rest =>
    let rn :=
      if lt b a then
        let pr := runDesc lt a (b :: rest)
        (pr.1.reverse, pr.2)
      else runAsc lt a (b :: rest)
    rn.2.foldl (binInsert lt) rn.1

/-- CPython `sorted(l, reverse=True)`: reverse, ascending sort, reverse. -/
def pySortedReverse (lt : α → α → Bool) (l : List α) : List α :=
  (pySort lt l.reverse).reverse

/-! The sprite pipeline over image descriptors. -/

/-- Image descriptor as it enters the layout stage of `Sprite`: its css class
name, its effective `width`/`height` (already including padding, as set at
the end of `Image.__init__`), and its padding quad. -/
structure SpriteImage where
  className : List Char
  width : Int
  height : Int
  padding : List Int
  deriving DecidableEq

/-- Mirror of `Image.__lt__`: compare by the configured algorithm, with a
non-strict `<=` in every branch and `maxside` as the fallback. -/
def ltImage (alg : List Char) (a b : SpriteImage) : Bool :=
  if alg = "width".data then decide (a.width ≤ b.width)
  else if alg = "height".data then decide (a.height ≤ b.height)
  else if alg = "area".data then decide (a.width * a.height ≤ b.width * b.height)
  else decide (max a.width a.height ≤ max b.width b.height)

/-- Ordering key underlying `Image.__lt__` for a given algorithm. -/
def keyOf (alg : List Char) (a : SpriteImage) : Int :=
  if alg = "width".data then a.width
  else if alg = "height".data then a.height
  else if alg = "area".data then a.width * a.height
  else max a.width a.height

/-- Mirror of the end of `Image.__init__` (crop disabled): the stored
`width`/`height` are the bitmap size plus the left+right / top+bottom
padding. -/
def mkSpriteImage (name : List Char) (bw bh : Int) (padding : List Int) : SpriteImage :=
  ⟨name, bw + padding.getD 1 0 + padding.getD 3 0, bh + padding.getD 0 0 + padding.getD 2 0,
    padding⟩

/-- Fatal sprite errors raised by `Sprite._locate_images`. -/
inductive SpriteError where
  | sourceImagesNotFound
  | multipleImagesWithSameName (dups : List SpriteImage)
  deriving DecidableEq

/-- Mirror of the duplicate list built by `Sprite._locate_images`: every
image whose class name occurs more than once. -/
def duplicateImages (images : List SpriteImage) : List SpriteImage :=
  images.filter fun i => decide (1 < (images.map SpriteImage.className).count i.className)

/-- Mirror of `Sprite._locate_images` after the directory walk: raise on an
empty image list, raise with the full duplicate list when class names repeat
(`len(set(class_names)) != len(images)`), else return the images sorted with
`sorted(images, reverse=True)`. -/
def locateImages (alg : List Char) (images : List SpriteImage) :
    Except SpriteError (List SpriteImage) :=
  if images.length = 0 then .error .sourceImagesNotFound
  else if ((images.map SpriteImage.className).dedup).length ≠ images.length then
    .error (.multipleImagesWithSameName (duplicateImages images))
  else .ok (pySortedReverse (ltImage alg) images)

/-- Layout stage of `Sprite.process` on an already sorted image list: root
sized from the first image, every image placed in order, each image paired
with its placement. -/
def layoutSorted : List SpriteImage → Option (Tree × List (SpriteImage × Option Rect))
  | [] => none
  | first :: rest =>
    let pr := runPlace (.leaf ⟨0, 0, first.width, first.height⟩)
      ((first :: rest).map fun i => (i.width, i.height))
    some (pr.1, (first :: rest).zip pr.2)

/-- Mirror of `Sprite.process`: `_locate_images` (duplicate check before any
placement), then the placement loop. -/
def spriteProcessFull (alg : List Char) (images : List SpriteImage) :
    Except SpriteError (Tree × List (SpriteImage × Option Rect)) :=
  match locateImages alg images with
  | .error e => .error e
  | .ok sortedImages =>
    match layoutSorted sortedImages with
    | none => .error .sourceImagesNotFound
    | some pr => .ok pr

/-- Python `padding[k]` on the padding quad (reachable quads have at least
four entries). -/
def padGet (p : List Int) (k : Nat) : Int :=
  p.getD k 0

/-- Accumulating loop of `Sprite.save_image`: `x = image.node.x +
image.width + padding[1] + padding[3]` (and symmetrically `y`), keeping the
running maxima; `image.node` being `None` is an `AttributeError`, modelled
as `none`. -/
def canvasGo : List (SpriteImage × Option Rect) → Int → Int → Option (Int × Int)
  | [], accW, accH => some (accW, accH)
  | (_, none) :: _, _, _ => none
  | (i, some p) :: rest, accW, accH =>
    canvasGo rest (max accW (p.x + i.width + padGet i.padding 1 + padGet i.padding 3))
      (max accH (p.y + i.height + padGet i.padding 0 + padGet i.padding 2))

/-- Canvas size computed by `Sprite.save_image` (starting from `width =
height = 0`). -/
def canvasOfImages (paired : List (SpriteImage × Option Rect)) : Option (Int × Int) :=
  canvasGo paired 0 0

/-- One full layout run as observed from outside: sort, place, and compute
the composed canvas size; per-image offsets are the placement rectangles
(`image.node.x`, `image.node.y` are the css offsets emitted by
`save_css`). -/
def layoutRun (alg : List Char) (images : List SpriteImage) :
    Option (Option (Int × Int) × List (SpriteImage × Option Rect)) :=
  (layoutSorted (pySortedReverse (ltImage alg) images)).map fun pr =>
    (canvasOfImages pr.2, pr.2)

/-- Canvas width as the spec's words state it: the maximum over all
placements of `placement.x + effectiveWidth` (the stored `width` already is
the effective, padded width). -/
def specCanvasW (paired : List (SpriteImage × Rect)) : Int :=
  paired.foldl (fun acc ip => max acc (ip.2.x + ip.1.width)) 0

/-- Canvas height as the spec's words state it. -/
def specCanvasH (paired : List (SpriteImage × Rect)) : Int :=
  paired.foldl (fun acc ip => max acc (ip.2.y + ip.1.height)) 0

/-- Raw data of a placed image for the corrected canvas-size statement:
bitmap size, padding quad and the node rectangle assigned by layout. -/
structure PlacedRaw where
  name : List Char
  bw : Int
  bh : Int
  padding : List Int
  node : Rect
  deriving DecidableEq

/-! Cropping. -/

/-- A decoded pixel. -/
structure RGBA where
  r : Nat
  g : Nat
  b : Nat
  a : Nat
  deriving DecidableEq

/-- The module constant `TRANSPARENT = (255, 255, 255, 0)`. -/
def TRANSPARENT : RGBA :=
  ⟨255, 255, 255, 0⟩

/-- `sys.maxint` on a 64-bit CPython 2. -/
def MAXINT : Nat :=
  9223372036854775807

/-- Mutable scan state of `Image._crop_image` (`maxx = maxy = 0`,
`minx = miny = sys.maxint` at entry). -/
structure ScanState where
  maxx : Nat
  maxy : Nat
  minx : Nat
  miny : Nat
  deriving DecidableEq

/-- One iteration of the pixel scan in `Image._crop_image`: the `continue`
shortcut skips a pixel with `y > miny and y < maxy and maxx == x`; otherwise
a pixel different from `TRANSPARENT` widens the four extrema. -/
def scanPixel (px : Nat → Nat → RGBA) (s : ScanState) (c : Nat × Nat) : ScanState :=
  if s.miny < c.2 ∧ c.2 < s.maxy ∧ s.maxx = c.1 then s
  else if px c.1 c.2 ≠ TRANSPARENT then
    { minx := if c.1 < s.minx then c.1 else s.minx
      maxx := if s.maxx < c.1 then c.1 else s.maxx
      miny := if c.2 < s.miny then c.2 else s.miny
      maxy := if s.maxy < c.2 then c.2 else s.maxy }
  else s

/-- The same update without the shortcut; the shortcut only ever skips
no-op updates (proved below), so both scans agree. -/
def cleanStep (px : Nat → Nat → RGBA) (s : ScanState) (c : Nat × Nat) : ScanState :=
  if px c.1 c.2 ≠ TRANSPARENT then
    { minx := if c.1 < s.minx then c.1 else s.minx
      maxx := if s.maxx < c.1 then c.1 else s.maxx
      miny := if c.2 < s.miny then c.2 else s.miny
      maxy := if s.maxy < c.2 then c.2 else s.maxy }
  else s

/-- Invariant of the crop scan: either some content pixel has been found
(then `minx ≤ maxx`), or the state is still the initial one. -/
def ScanInv (s : ScanState) : Prop :=
  s.minx ≤ s.maxx ∨ s = ⟨0, 0, MAXINT, MAXINT⟩

/-- Scan order of `Image._crop_image`: `for x in xrange(width): for y in
xrange(height)`. -/
def coordsColMajor (width height : Nat) : List (Nat × Nat) :=
  (List.range width).foldr
    (fun x acc => ((List.range height).map fun y => (x, y)) ++ acc) []

/-- Mirror of `Image._crop_image`: run the scan and crop to
`(minx, miny, maxx + 1, maxy + 1)`. -/
def cropBox (px : Nat → Nat → RGBA) (width height : Nat) : Nat × Nat × Nat × Nat :=
  let s := (coordsColMajor width height).foldl (scanPixel px) ⟨0, 0, MAXINT, MAXINT⟩
  (s.minx, s.miny, s.maxx + 1, s.maxy + 1)

/-- Coordinates of the pixels the code treats as content (different from the
`TRANSPARENT` constant). -/
def contentCoords (px : Nat → Nat → RGBA) (width height : Nat) : List (Nat × Nat) :=
  (coordsColMajor width height).filter fun c => decide (px c.1 c.2 ≠ TRANSPARENT)

/-- Tight bounding box `[minX, minY, maxX+1, maxY+1]` of a coordinate list
(`none` when the list is empty). -/
def tightBox : List (Nat × Nat) → Option (Nat × Nat × Nat × Nat)
  | [] => none
  | c :: cs =>
    some (cs.foldl (fun a d => min a d.1) c.1, cs.foldl (fun a d => min a d.2) c.2,
          cs.foldl (fun a d => max a d.1) c.1 + 1, cs.foldl (fun a d => max a d.2) c.2 + 1)

/-- Crop box as the claim states it: the tight bounding box of the pixels
that are not fully transparent, i.e. whose alpha channel is nonzero,
regardless of their color channels. -/
def specAlphaBox (px : Nat → Nat → RGBA) (width height : Nat) :
    Option (Nat × Nat × Nat × Nat) :=
  tightBox ((coordsColMajor width height).filter fun c => decide ((px c.1 c.2).a ≠ 0))

/-! Claim-side definitions written from the spec's words, for comparison
with the code-derived definitions above. -/

/-- Direction chosen by growth. -/
inductive GrowChoice where
  | chooseRight
  | chooseDown
  | chooseFail
  deriving DecidableEq

/-- Growth decision as the claim states it: grow right if `h ≤ H` and
`H ≥ W + w`; else grow down if `w ≤ W` and `W ≥ H + h`; else grow right if
`h ≤ H`; else grow down if `w ≤ W`; else fail. -/
def specGrowChoice (W H w h : Int) : GrowChoice :=
  if h ≤ H ∧ H ≥ W + w then .chooseRight
  else if w ≤ W ∧ W ≥ H + h then .chooseDown
  else if h ≤ H then .chooseRight
  else if w ≤ W then .chooseDown
  else .chooseFail

/-- A run of `lo`–`hi` dash-separated integers. -/
def isIntRun (lo hi : Nat) (s : List Char) : Prop :=
  lo ≤ (splitOnChar '-' s).length ∧ (splitOnChar '-' s).length ≤ hi ∧
    ∀ p ∈ splitOnChar '-' s, p ≠ [] ∧ p.all Char.isDigit = true

instance (lo hi : Nat) (s : List Char) : Decidable (isIntRun lo hi s) := by
  unfold isIntRun; infer_instance

/-- Padding-suffix recognition as the claim states it: a trailing run of 1–4
dash-separated integers preceded by an underscore. -/
def claimRecognized (stem : List Char) : Prop :=
  '_' ∈ stem ∧ isIntRun 1 4 (afterLastUnderscore stem)

instance (stem : List Char) : Decidable (claimRecognized stem) := by
  unfold claimRecognized; infer_instance

/-- Padding-suffix recognition as the code actually behaves (corrected
claim): the part after the last underscore — the whole stem when it has no
underscore — is a run of 1–5 dash-separated integers. -/
def amendedRecognized (stem : List Char) : Prop :=
  isIntRun 1 5 (afterLastUnderscore stem)

/-! Concrete inputs used by counterexamples and witnesses. -/

/-- A 10 wide, 5 high image (maxside 10). -/
def imgA : SpriteImage :=
  ⟨"a".data, 10, 5, [0, 0, 0, 0]⟩

/-- A 5 wide, 10 high image (maxside 10, tying with `imgA`). -/
def imgB : SpriteImage :=
  ⟨"b".data, 5, 10, [0, 0, 0, 0]⟩

/-- A 1×1 bitmap with padding 10 on every side, as built by
`Image.__init__`: stored size 21×21. -/
def imgPad : SpriteImage :=
  mkSpriteImage ("a".data) 1 1 [10, 10, 10, 10]

/-- A 3 wide, 1 high image (maxside 3), for the distinct-key witness. -/
def imgA3 : SpriteImage :=
  ⟨"a".data, 3, 1, [0, 0, 0, 0]⟩

/-- A 2 wide, 1 high image (maxside 2), for the distinct-key witness. -/
def imgB2 : SpriteImage :=
  ⟨"b".data, 2, 1, [0, 0, 0, 0]⟩

/-- A 5 wide, 1 high image (maxside 5), for the distinct-key witness. -/
def imgC5 : SpriteImage :=
  ⟨"c".data, 5, 1, [0, 0, 0, 0]⟩

/-- A 1×2 bitmap: fully transparent black at `(0,0)`, opaque red at
`(0,1)`. -/
def cPx : Nat → Nat → RGBA := fun x y =>
  if x = 0 ∧ y = 1 then ⟨1, 2, 3, 255⟩ else ⟨0, 0, 0, 0⟩

/-- Image sizes used to witness the no-overlap theorem. -/
def c1wSizes : List (Int × Int) :=
  [(3, 3), (2, 2)]

/-- The tree `processSprite c1wSizes` produces: a 3×3 root split for the
first image, grown right for the second. -/
def c1wTree : Tree :=
  .node ⟨0, 0, 5, 3⟩
    (.node ⟨3, 0, 2, 3⟩ (.leaf ⟨5, 0, 0, 2⟩) (.leaf ⟨3, 2, 2, 1⟩))
    (.node ⟨0, 0, 3, 3⟩ (.leaf ⟨3, 0, 0, 3⟩) (.leaf ⟨0, 3, 3, 0⟩))

/-- The placements `processSprite c1wSizes` produces. -/
def c1wPs : List (Option Rect) :=
  [some ⟨0, 0, 3, 3⟩, some ⟨3, 0, 2, 2⟩]

/-! Theorems.  Helper lemmas come first, the per-claim theorems afterwards. -/

/-- Two rectangles are point-disjoint exactly when they do not overlap. -/
theorem pts_disjoint_iff (a b : Rect) : Disjoint (pts a) (pts b) ↔ ¬ a.overlaps b := by
  constructor
  · intro hd hov
    obtain ⟨haw, hah, hbw, hbh, h1, h2, h3, h4⟩ := hov
    rcases le_total a.x b.x with hx | hx <;> rcases le_total a.y b.y with hy | hy
    · exact Set.disjoint_left.mp hd
        (show ((b.x, b.y) : Int × Int) ∈ pts a by
          simp only [pts, Set.mem_setOf_eq]; omega)
        (by simp only [pts, Set.mem_setOf_eq]; omega)
    · exact Set.disjoint_left.mp hd
        (show ((b.x, a.y) : Int × Int) ∈ pts a by
          simp only [pts, Set.mem_setOf_eq]; omega)
        (by simp only [pts, Set.mem_setOf_eq]; omega)
    · exact Set.disjoint_left.mp hd
        (show ((a.x, b.y) : Int × Int) ∈ pts a by
          simp only [pts, Set.mem_setOf_eq]; omega)
        (by simp only [pts, Set.mem_setOf_eq]; omega)
    · exact Set.disjoint_left.mp hd
        (show ((a.x, a.y) : Int × Int) ∈ pts a by
          simp only [pts, Set.mem_setOf_eq]; omega)
        (by simp only [pts, Set.mem_setOf_eq]; omega)
  · intro hno
    rw [Set.disjoint_left]
    intro z hza hzb
    simp only [pts, Set.mem_setOf_eq] at hza hzb
    exact hno ⟨by omega, by omega, by omega, by omega, by omega, by omega, by omega, by omega⟩

/-- Agreement of the fused `Tree.place` with the separately modelled
`Node.find`: `place` succeeds exactly when `find` does, and the placed
rectangle is the found node's origin with the requested size (as `split`
leaves the found node's `x`, `y` untouched). -/
theorem Tree.place_find : ∀ (t : Tree) (w h : Int),
    match t.find w h with
    | none => t.place w h = none
    | some r => ∃ t2, t.place w h = some (t2, ⟨r.x, r.y, w, h⟩) := by
  intro t
  induction t with
  | leaf r =>
    intro w h
    by_cases hc : w ≤ r.w ∧ h ≤ r.h
    · have hf : (Tree.leaf r).find w h = some r := by simp [Tree.find, hc]
      rw [hf]
      exact ⟨Tree.node r (.leaf ⟨r.x + w, r.y, r.w - w, h⟩)
        (.leaf ⟨r.x, r.y + h, r.w, r.h - h⟩), by simp [Tree.place, hc]⟩
    · have hf : (Tree.leaf r).find w h = none := by simp [Tree.find, hc]
      rw [hf]
      simp [Tree.place, hc]
  | node r right down ihr ihd =>
    intro w h
    have hir := ihr w h
    have hid := ihd w h
    rcases hfr : right.find w h with _ | rr
    · rw [hfr] at hir
      rcases hfd : down.find w h with _ | rd
      · rw [hfd] at hid
        have hf : (Tree.node r right down).find w h = none := by
          simp [Tree.find, hfr, hfd]
        rw [hf]
        simp [Tree.place, hir, hid]
      · rw [hfd] at hid
        obtain ⟨t2, ht2⟩ := hid
        have hf : (Tree.node r right down).find w h = some rd := by
          simp [Tree.find, hfr, hfd]
        rw [hf]
        exact ⟨Tree.node r right t2, by simp [Tree.place, hir, ht2]⟩
    · rw [hfr] at hir
      obtain ⟨t2, ht2⟩ := hir
      have hf : (Tree.node r right down).find w h = some rr := by
        simp [Tree.find, hfr]
      rw [hf]
      exact ⟨Tree.node r t2 down, by simp [Tree.place, ht2]⟩

/-- The free region of a well-formed tree lies inside its root rectangle. -/
theorem Tree.free_sub_rect : ∀ t : Tree, t.wf → t.freeSet ⊆ pts t.rect := by
  intro t
  induction t with
  | leaf r => intro _; exact Set.Subset.rfl
  | node r right down ihr ihd =>
    intro hwf
    obtain ⟨hwfR, hwfD, hsubR, hsubD, _⟩ := hwf
    intro q hq
    rcases hq with hq | hq
    · exact hsubR (ihr hwfR hq)
    · exact hsubD (ihd hwfD hq)

/-- Effect of `find` + `split` on a well-formed tree: the root rectangle is
unchanged, the placement is carved out of the free region, and the new free
region is the old one minus the placement. -/
theorem Tree.place_spec (w h : Int) (hw : 0 ≤ w) (hh : 0 ≤ h) :
    ∀ t : Tree, t.wf → ∀ t2 p, t.place w h = some (t2, p) →
      t2.wf ∧ t2.rect = t.rect ∧ pts p ⊆ t.freeSet ∧ t2.freeSet ⊆ t.freeSet \ pts p := by
  intro t
  induction t with
  | leaf r =>
    intro _ t2 p hp
    simp only [Tree.place] at hp
    split at hp
    case isFalse => exact absurd hp (by simp)
    case isTrue hcond =>
      obtain ⟨hw2, hh2⟩ := hcond
      rw [Option.some.injEq, Prod.mk.injEq] at hp
      obtain ⟨h1, h2⟩ := hp
      subst h1
      subst h2
      refine ⟨?_, rfl, ?_, ?_⟩
      · simp only [Tree.wf, Tree.rect]
        refine ⟨trivial, trivial, ?_, ?_, ?_⟩
        · intro q hq; simp only [pts, Set.mem_setOf_eq] at hq ⊢; omega
        · intro q hq; simp only [pts, Set.mem_setOf_eq] at hq ⊢; omega
        · rw [Set.disjoint_left]
          intro q hq hq2
          simp only [pts, Set.mem_setOf_eq] at hq hq2
          omega
      · intro q hq
        simp only [pts, Set.mem_setOf_eq, Tree.freeSet] at hq ⊢
        omega
      · intro q hq
        simp only [Tree.freeSet, Set.mem_union, pts, Set.mem_setOf_eq] at hq
        simp only [Set.mem_diff, Tree.freeSet, pts, Set.mem_setOf_eq]
        rcases hq with hq | hq
        · exact ⟨by omega, by omega⟩
        · exact ⟨by omega, by omega⟩
  | node r right down ihr ihd =>
    intro hwf t2 p hp
    obtain ⟨hwfR, hwfD, hsubR, hsubD, hdisj⟩ := hwf
    simp only [Tree.place] at hp
    rcases hR : right.place w h with _ | ⟨right2, pR⟩
    · rw [hR] at hp
      rcases hD : down.place w h with _ | ⟨down2, pD⟩
      · rw [hD] at hp; exact absurd hp (by simp)
      · rw [hD] at hp
        simp only [Option.some.injEq, Prod.mk.injEq] at hp
        obtain ⟨h1, h2⟩ := hp
        subst h1
        subst h2
        obtain ⟨ih1, ih2, ih3, ih4⟩ := ihd hwfD _ _ hD
        refine ⟨⟨hwfR, ih1, hsubR, ?_, ?_⟩, rfl, ?_, ?_⟩
        · rw [ih2]; exact hsubD
        · rw [ih2]; exact hdisj
        · intro q hq
          exact Or.inr (ih3 hq)
        · intro q hq
          rcases hq with hq | hq
          · refine ⟨Or.inl hq, fun hqp => ?_⟩
            exact Set.disjoint_left.mp hdisj (Tree.free_sub_rect right hwfR hq)
              (Tree.free_sub_rect down hwfD (ih3 hqp))
          · obtain ⟨hq1, hq2⟩ := ih4 hq
            exact ⟨Or.inr hq1, hq2⟩
    · rw [hR] at hp
      simp only [Option.some.injEq, Prod.mk.injEq] at hp
      obtain ⟨h1, h2⟩ := hp
      subst h1
      subst h2
      obtain ⟨ih1, ih2, ih3, ih4⟩ := ihr hwfR _ _ hR
      refine ⟨⟨ih1, hwfD, ?_, hsubD, ?_⟩, rfl, ?_, ?_⟩
      · rw [ih2]; exact hsubR
      · rw [ih2]; exact hdisj
      · intro q hq
        exact Or.inl (ih3 hq)
      · intro q hq
        rcases hq with hq | hq
        · obtain ⟨hq1, hq2⟩ := ih4 hq
          exact ⟨Or.inl hq1, hq2⟩
        · refine ⟨Or.inr hq, fun hqp => ?_⟩
          exact Set.disjoint_left.mp hdisj (Tree.free_sub_rect right hwfR (ih3 hqp))
            (Tree.free_sub_rect down hwfD hq)

/-- Effect of `grow_right` on a well-formed origin-rooted tree. -/
theorem Tree.growRight_spec (w h W H : Int) (hw : 0 ≤ w) (hh : 0 ≤ h) (hW : 0 ≤ W)
    (hH : 0 ≤ H) (t : Tree) (hwf : t.wf) (hrect : t.rect = ⟨0, 0, W, H⟩) :
    ∀ t2 op, t.growRight w h = (t2, op) →
      t2.wf ∧ t2.rect = ⟨0, 0, W + w, H⟩ ∧
        optPts op ⊆ t.freeSet ∪ pts ⟨W, 0, w, H⟩ ∧
        t2.freeSet ⊆ (t.freeSet ∪ pts ⟨W, 0, w, H⟩) \ optPts op := by
  intro t2 op hg
  have hwfG : (Tree.node ⟨0, 0, W + w, H⟩ (.leaf ⟨W, 0, w, H⟩) t).wf := by
    refine ⟨trivial, hwf, ?_, ?_, ?_⟩
    · intro q hq; simp only [Tree.rect, pts, Set.mem_setOf_eq] at hq ⊢; omega
    · rw [hrect]
      intro q hq; simp only [Tree.rect, pts, Set.mem_setOf_eq] at hq ⊢; omega
    · rw [Tree.rect, hrect, Set.disjoint_left]
      intro q hq hq2
      simp only [Tree.rect, pts, Set.mem_setOf_eq] at hq hq2
      omega
  have hfreeG : (Tree.node ⟨0, 0, W + w, H⟩ (.leaf ⟨W, 0, w, H⟩) t).freeSet
      = pts ⟨W, 0, w, H⟩ ∪ t.freeSet := rfl
  simp only [Tree.growRight, hrect] at hg
  rcases hp : (Tree.node ⟨0, 0, W + w, H⟩ (.leaf ⟨W, 0, w, H⟩) t).place w h
    with _ | ⟨t3, p⟩
  · rw [hp] at hg
    simp only [Prod.mk.injEq] at hg
    obtain ⟨h1, h2⟩ := hg
    subst h1
    subst h2
    refine ⟨hwfG, rfl, by simp [optPts], ?_⟩
    simp only [optPts, Set.diff_empty]
    intro q hq
    rw [hfreeG] at hq
    rcases hq with hq | hq
    · exact Or.inr hq
    · exact Or.inl hq
  · rw [hp] at hg
    simp only [Prod.mk.injEq] at hg
    obtain ⟨h1, h2⟩ := hg
    subst h1
    subst h2
    obtain ⟨hwf3, hr3, hps, hfree3⟩ := Tree.place_spec w h hw hh _ hwfG _ _ hp
    refine ⟨hwf3, hr3, ?_, ?_⟩
    · simp only [optPts]
      intro q hq
      have := hps hq
      rw [hfreeG] at this
      rcases this with hq2 | hq2
      · exact Or.inr hq2
      · exact Or.inl hq2
    · simp only [optPts]
      intro q hq
      obtain ⟨hq1, hq2⟩ := hfree3 hq
      rw [hfreeG] at hq1
      rcases hq1 with hq1 | hq1
      · exact ⟨Or.inr hq1, hq2⟩
      · exact ⟨Or.inl hq1, hq2⟩

/-- Effect of `grow_down` on a well-formed origin-rooted tree. -/
theorem Tree.growDown_spec (w h W H : Int) (hw : 0 ≤ w) (hh : 0 ≤ h) (hW : 0 ≤ W)
    (hH : 0 ≤ H) (t : Tree) (hwf : t.wf) (hrect : t.rect = ⟨0, 0, W, H⟩) :
    ∀ t2 op, t.growDown w h = (t2, op) →
      t2.wf ∧ t2.rect = ⟨0, 0, W, H + h⟩ ∧
        optPts op ⊆ t.freeSet ∪ pts ⟨0, H, W, h⟩ ∧
        t2.freeSet ⊆ (t.freeSet ∪ pts ⟨0, H, W, h⟩) \ optPts op := by
  intro t2 op hg
  have hwfG : (Tree.node ⟨0, 0, W, H + h⟩ t (.leaf ⟨0, H, W, h⟩)).wf := by
    refine ⟨hwf, trivial, ?_, ?_, ?_⟩
    · rw [hrect]
      intro q hq; simp only [Tree.rect, pts, Set.mem_setOf_eq] at hq ⊢; omega
    · intro q hq; simp only [Tree.rect, pts, Set.mem_setOf_eq] at hq ⊢; omega
    · rw [Tree.rect, hrect, Set.disjoint_left]
      intro q hq hq2
      simp only [Tree.rect, pts, Set.mem_setOf_eq] at hq hq2
      omega
  have hfreeG : (Tree.node ⟨0, 0, W, H + h⟩ t (.leaf ⟨0, H, W, h⟩)).freeSet
      = t.freeSet ∪ pts ⟨0, H, W, h⟩ := rfl
  simp only [Tree.growDown, hrect] at hg
  rcases hp : (Tree.node ⟨0, 0, W, H + h⟩ t (.leaf ⟨0, H, W, h⟩)).place w h
    with _ | ⟨t3, p⟩
  · rw [hp] at hg
    simp only [Prod.mk.injEq] at hg
    obtain ⟨h1, h2⟩ := hg
    subst h1
    subst h2
    refine ⟨hwfG, rfl, by simp [optPts], ?_⟩
    simp only [optPts, Set.diff_empty]
    rw [hfreeG]
  · rw [hp] at hg
    simp only [Prod.mk.injEq] at hg
    obtain ⟨h1, h2⟩ := hg
    subst h1
    subst h2
    obtain ⟨hwf3, hr3, hps, hfree3⟩ := Tree.place_spec w h hw hh _ hwfG _ _ hp
    refine ⟨hwf3, hr3, ?_, ?_⟩
    · simp only [optPts]
      exact fun q hq => by rw [← hfreeG]; exact hps hq
    · simp only [optPts]
      intro q hq
      obtain ⟨hq1, hq2⟩ := hfree3 hq
      rw [hfreeG] at hq1
      exact ⟨hq1, hq2⟩

/-- Effect of `grow` on a well-formed origin-rooted tree. -/
theorem Tree.grow_spec (w h W H : Int) (hw : 0 ≤ w) (hh : 0 ≤ h) (hW : 0 ≤ W)
    (hH : 0 ≤ H) (t : Tree) (hwf : t.wf) (hrect : t.rect = ⟨0, 0, W, H⟩) :
    ∀ t2 op, t.grow w h = (t2, op) → StepOk t t2 op := by
  intro t2 op hg
  simp only [Tree.grow, hrect] at hg
  have hright : t.growRight w h = (t2, op) → StepOk t t2 op := by
    intro hgr
    obtain ⟨hwf2, hr2, hop, hfree2⟩ :=
      Tree.growRight_spec w h W H hw hh hW hH t hwf hrect t2 op hgr
    refine ⟨pts ⟨W, 0, w, H⟩, hwf2, by rw [hr2], by rw [hr2],
      by rw [hr2]; show (0 : Int) ≤ W + w; omega,
      by rw [hr2]; show (0 : Int) ≤ H; omega, ?_, ?_, ?_, hop, hfree2⟩
    · rw [hrect, hr2]
      intro q hq; simp only [pts, Set.mem_setOf_eq] at hq ⊢; omega
    · rw [hrect, Set.disjoint_left]
      intro q hq hq2
      simp only [pts, Set.mem_setOf_eq] at hq hq2
      omega
    · rw [hr2]
      intro q hq; simp only [pts, Set.mem_setOf_eq] at hq ⊢; omega
  have hdown : t.growDown w h = (t2, op) → StepOk t t2 op := by
    intro hgd
    obtain ⟨hwf2, hr2, hop, hfree2⟩ :=
      Tree.growDown_spec w h W H hw hh hW hH t hwf hrect t2 op hgd
    refine ⟨pts ⟨0, H, W, h⟩, hwf2, by rw [hr2], by rw [hr2],
      by rw [hr2]; show (0 : Int) ≤ W; omega,
      by rw [hr2]; show (0 : Int) ≤ H + h; omega, ?_, ?_, ?_, hop, hfree2⟩
    · rw [hrect, hr2]
      intro q hq; simp only [pts, Set.mem_setOf_eq] at hq ⊢; omega
    · rw [hrect, Set.disjoint_left]
      intro q hq hq2
      simp only [pts, Set.mem_setOf_eq] at hq hq2
      omega
    · rw [hr2]
      intro q hq; simp only [pts, Set.mem_setOf_eq] at hq ⊢; omega
  split_ifs at hg with h1 h2 h3 h4
  · exact hright hg
  · exact hdown hg
  · exact hright hg
  · exact hdown hg
  · simp only [Prod.mk.injEq] at hg
    obtain ⟨hg1, hg2⟩ := hg
    subst hg1
    subst hg2
    refine ⟨∅, hwf, by rw [hrect], by rw [hrect], by rw [hrect]; exact hW,
      by rw [hrect]; exact hH, Set.Subset.rfl, Set.disjoint_left.mpr (by simp),
      Set.empty_subset _, by simp [optPts], ?_⟩
    simp only [optPts, Set.diff_empty, Set.union_empty]
    exact Set.Subset.rfl

/-- A successful `find`+`split` also yields a `StepOk` step (with no fresh
region). -/
theorem Tree.place_stepOk (t : Tree) (s : Int × Int) (hwf : t.wf)
    (hx : t.rect.x = 0) (hy : t.rect.y = 0) (hW : 0 ≤ t.rect.w) (hH : 0 ≤ t.rect.h)
    (h1 : 0 ≤ s.1) (h2 : 0 ≤ s.2) :
    ∀ t3 p, t.place s.1 s.2 = some (t3, p) → StepOk t t3 (some p) := by
  intro t3 p hp
  obtain ⟨hwf3, hr3, hps, hfree3⟩ := Tree.place_spec s.1 s.2 h1 h2 t hwf t3 p hp
  refine ⟨∅, hwf3, by rw [hr3]; exact hx, by rw [hr3]; exact hy, by rw [hr3]; exact hW,
    by rw [hr3]; exact hH, by rw [hr3], Set.disjoint_left.mpr (by simp),
    Set.empty_subset _, ?_, ?_⟩
  · simp only [optPts, Set.union_empty]
    exact hps
  · simp only [optPts, Set.union_empty]
    intro q hq
    exact hfree3 hq

/-- A `StepOk` step preserves the loop invariant, the new placement (if any)
appended. -/
theorem stinv_of_stepOk (t t2 : Tree) (placed : List Rect) (op : Option Rect)
    (hinv : StInv t placed) (hstep : StepOk t t2 op) :
    StInv t2 (placed ++ op.toList) := by
  obtain ⟨hwf, hx, hy, hW, hH, hplaced, hpair⟩ := hinv
  obtain ⟨S, hwf2, hx2, hy2, hW2, hH2, hrsub, hSdisj, hSsub, hopS, hfree2⟩ := hstep
  have hfreeRect : t.freeSet ⊆ pts t.rect := Tree.free_sub_rect t hwf
  have hopRect : optPts op ⊆ pts t2.rect := by
    intro q hq
    rcases hopS hq with hq2 | hq2
    · exact hrsub (hfreeRect hq2)
    · exact hSsub hq2
  have hopOldDisj : ∀ q ∈ placed, Disjoint (pts q) (optPts op) := by
    intro q hq
    rw [Set.disjoint_left]
    intro z hz hz2
    rcases hopS hz2 with hz3 | hz3
    · exact Set.disjoint_left.mp (hplaced q hq).2 hz hz3
    · exact Set.disjoint_left.mp hSdisj hz3 ((hplaced q hq).1 hz)
  refine ⟨hwf2, hx2, hy2, hW2, hH2, ?_, ?_⟩
  · intro q hq
    rcases List.mem_append.mp hq with hq | hq
    · refine ⟨(hplaced q hq).1.trans hrsub, ?_⟩
      rw [Set.disjoint_left]
      intro z hz hz2
      rcases (hfree2 hz2).1 with hz3 | hz3
      · exact Set.disjoint_left.mp (hplaced q hq).2 hz hz3
      · exact Set.disjoint_left.mp hSdisj hz3 ((hplaced q hq).1 hz)
    · have hqo : op = some q := by
        cases op with
        | none => simp [Option.toList] at hq
        | some p => simp [Option.toList] at hq; rw [hq]
      subst hqo
      refine ⟨fun z hz => hopRect hz, ?_⟩
      rw [Set.disjoint_left]
      intro z hz hz2
      exact (hfree2 hz2).2 hz
  · rw [List.pairwise_append]
    refine ⟨hpair, ?_, ?_⟩
    · cases op with
      | none => exact List.Pairwise.nil
      | some p => exact List.pairwise_singleton _ _
    · intro a ha b hb
      have hbo : op = some b := by
        cases op with
        | none => simp [Option.toList] at hb
        | some p => simp [Option.toList] at hb; rw [hb]
      have := hopOldDisj a ha
      rw [hbo] at this
      exact this

/-- One iteration of the `Sprite.process` loop preserves the invariant. -/
theorem placeStep_spec (t : Tree) (placed : List Rect) (s : Int × Int)
    (hinv : StInv t placed) (h1 : 0 ≤ s.1) (h2 : 0 ≤ s.2) :
    ∀ t2 op, t.placeStep s = (t2, op) → StInv t2 (placed ++ op.toList) := by
  intro t2 op hstep
  obtain ⟨hwf, hx, hy, hW, hH, hplaced, hpair⟩ := hinv
  simp only [Tree.placeStep] at hstep
  rcases hp : t.place s.1 s.2 with _ | ⟨t3, p⟩
  · rw [hp] at hstep
    rcases hteq : t.rect with ⟨x, y, W2, H2⟩
    have hx2 : x = 0 := by rw [hteq] at hx; exact hx
    have hy2 : y = 0 := by rw [hteq] at hy; exact hy
    subst hx2
    subst hy2
    have hW2 : 0 ≤ W2 := by rw [hteq] at hW; exact hW
    have hH2 : 0 ≤ H2 := by rw [hteq] at hH; exact hH
    exact stinv_of_stepOk t t2 placed op ⟨hwf, hx, hy, hW, hH, hplaced, hpair⟩
      (Tree.grow_spec s.1 s.2 W2 H2 h1 h2 hW2 hH2 t hwf hteq t2 op hstep)
  · rw [hp] at hstep
    simp only [Prod.mk.injEq] at hstep
    obtain ⟨hs1, hs2⟩ := hstep
    subst hs1
    subst hs2
    exact stinv_of_stepOk t t3 placed (some p) ⟨hwf, hx, hy, hW, hH, hplaced, hpair⟩
      (Tree.place_stepOk t s hwf hx hy hW hH h1 h2 t3 p hp)

/-- Splitting an optional head off `filterMap id`. -/
theorem filterMap_id_cons (op : Option Rect) (l : List (Option Rect)) :
    (op :: l).filterMap id = op.toList ++ l.filterMap id := by
  cases op <;> simp [List.filterMap_cons, Option.toList]

/-- The placement loop preserves the invariant along the whole list. -/
theorem runPlace_inv : ∀ (sizes : List (Int × Int)) (t : Tree) (placed : List Rect),
    StInv t placed → (∀ s ∈ sizes, 0 ≤ s.1 ∧ 0 ≤ s.2) →
    ∀ tf ps, runPlace t sizes = (tf, ps) → StInv tf (placed ++ ps.filterMap id) := by
  intro sizes
  induction sizes with
  | nil =>
    intro t placed hinv _ tf ps hrp
    simp only [runPlace, Prod.mk.injEq] at hrp
    obtain ⟨h1, h2⟩ := hrp
    subst h1
    subst h2
    simpa using hinv
  | cons s rest ih =>
    intro t placed hinv hnn tf ps hrp
    simp only [runPlace] at hrp
    rcases hstep : t.placeStep s with ⟨t1, op⟩
    rw [hstep] at hrp
    rcases hnext : runPlace t1 rest with ⟨tf2, ps2⟩
    rw [hnext] at hrp
    simp only [Prod.mk.injEq] at hrp
    obtain ⟨h1, h2⟩ := hrp
    subst h1
    subst h2
    have hinv1 := placeStep_spec t placed s hinv (hnn s (by simp)).1 (hnn s (by simp)).2
      t1 op hstep
    have hres := ih t1 (placed ++ op.toList) hinv1
      (fun s2 hs2 => hnn s2 (by simp [hs2])) tf2 ps2 hnext
    rw [filterMap_id_cons, ← List.append_assoc]
    exact hres

/-- C1.  No-overlap invariant: for every sequence of items placed by the
layout engine of `Sprite.process` (each via `find`+`split` on the current
tree, or via `grow` when `find` fails) with nonnegative effective sizes, the
placed rectangles — each at its node's origin with the item's effective
width and height — are pairwise non-overlapping in the finished layout. -/
theorem c1_no_overlap (sizes : List (Int × Int))
    (hnn : ∀ s ∈ sizes, 0 ≤ s.1 ∧ 0 ≤ s.2) :
    ∀ t ps, processSprite sizes = some (t, ps) →
      (ps.filterMap id).Pairwise fun a b => ¬ a.overlaps b := by
  intro t ps hrun
  cases sizes with
  | nil => simp [processSprite] at hrun
  | cons s rest =>
    simp only [processSprite, Option.some.injEq] at hrun
    have h0 : StInv (.leaf ⟨0, 0, s.1, s.2⟩) [] := by
      refine ⟨trivial, rfl, rfl, (hnn s (by simp)).1, (hnn s (by simp)).2, ?_, ?_⟩
      · intro q hq; simp at hq
      · exact List.Pairwise.nil
    obtain ⟨_, _, _, _, _, _, hpair⟩ :=
      runPlace_inv (s :: rest) _ [] h0 hnn t ps hrun
    simp only [List.nil_append] at hpair
    exact hpair.imp fun hd => (pts_disjoint_iff _ _).mp hd

/-- Witness for `c1_no_overlap`: concrete run of two images, hypotheses
discharged by evaluation. -/
theorem c1_no_overlap_witness :
    (∀ s ∈ c1wSizes, 0 ≤ s.1 ∧ 0 ≤ s.2) ∧
    processSprite c1wSizes = some (c1wTree, c1wPs) ∧
    (c1wPs.filterMap id).Pairwise fun a b => ¬ a.overlaps b :=
  ⟨by decide, by decide,
    c1_no_overlap c1wSizes (by decide) c1wTree c1wPs (by decide)⟩

/-- C2.  Growth direction rule: `Node.grow` picks, in the claim's order,
grow right when `h ≤ H` and `H ≥ W + w`; else grow down when `w ≤ W` and
`W ≥ H + h`; else grow right when `h ≤ H`; else grow down when `w ≤ W`
(else it fails, leaving the tree unchanged and no placement); and in the
concrete scenario of a 10×10 root with a 20×5 item the tree grows right,
the canvas becomes 30×10 and the item is placed at `(10, 0)`. -/
theorem c2_growth_direction :
    (∀ (t : Tree) (w h : Int),
      match specGrowChoice t.rect.w t.rect.h w h with
      | .chooseRight => t.grow w h = t.growRight w h
      | .chooseDown => t.grow w h = t.growDown w h
      | .chooseFail => t.grow w h = (t, none)) ∧
    (processSprite [(10, 10), (20, 5)]).map (fun r => (r.1.rect, r.2)) =
      some (⟨0, 0, 30, 10⟩, [some ⟨0, 0, 10, 10⟩, some ⟨10, 0, 20, 5⟩]) := by
  constructor
  · intro t w h
    unfold specGrowChoice Tree.grow
    split_ifs <;> rfl
  · decide

/-- C3.  On an item exceeding the root in both extensible directions
(`h > H` and `w > W`), `Node.grow` returns `None` and `Sprite.process`
stores `image.node = None` with no error: after a 10×10 first image, a 20×20
item ends the run with a `none` placement and no failure signal. -/
theorem c3_silent_growth_failure :
    (processSprite [(10, 10), (20, 20)]).map (fun r => r.2) =
      some [some ⟨0, 0, 10, 10⟩, none] := by
  decide

/-- C4 counterexample.  For the finished layout of one 1×1 bitmap with
padding 10 on every side (effective size 21×21, placed at the origin),
`Sprite.save_image` computes a 41×41 canvas because `image.width` already
contains the padding and `padding[1] + padding[3]` is added again, while the
claim's formula gives 21×21. -/
theorem c4_canvas_counterexample :
    layoutRun ("maxside".data) [imgPad] =
      some (some (41, 41), [(imgPad, some ⟨0, 0, 21, 21⟩)]) ∧
    specCanvasW [(imgPad, ⟨0, 0, 21, 21⟩)] = 21 ∧
    specCanvasH [(imgPad, ⟨0, 0, 21, 21⟩)] = 21 ∧
    ((41 : Int), (41 : Int)) ≠ ((21 : Int), (21 : Int)) := by
  decide

/-- Canvas computation of `Sprite.save_image` on fully placed images built
by `Image.__init__`, unfolded to bitmap quantities, for any accumulator. -/
theorem canvasGo_raw (l : List PlacedRaw) : ∀ accW accH : Int,
    canvasGo (l.map fun r => (mkSpriteImage r.name r.bw r.bh r.padding, some r.node))
        accW accH =
      some
        (l.foldl (fun acc r =>
          max acc (r.node.x + r.bw + 2 * (padGet r.padding 1 + padGet r.padding 3))) accW,
         l.foldl (fun acc r =>
          max acc (r.node.y + r.bh + 2 * (padGet r.padding 0 + padGet r.padding 2))) accH) := by
  induction l with
  | nil => intro accW accH; rfl
  | cons r rest ih =>
    intro accW accH
    simp only [List.map_cons, canvasGo, List.foldl_cons, mkSpriteImage, padGet]
    have h1 : r.node.x + (r.bw + r.padding.getD 1 0 + r.padding.getD 3 0)
        + r.padding.getD 1 0 + r.padding.getD 3 0
        = r.node.x + r.bw + 2 * (r.padding.getD 1 0 + r.padding.getD 3 0) := by ring
    have h2 : r.node.y + (r.bh + r.padding.getD 0 0 + r.padding.getD 2 0)
        + r.padding.getD 0 0 + r.padding.getD 2 0
        = r.node.y + r.bh + 2 * (r.padding.getD 0 0 + r.padding.getD 2 0) := by ring
    rw [h1, h2]
    exact ih _ _

/-- C4 amended.  The composed canvas is the smallest rectangle containing,
for each placement, `placement + bitmap + twice the padding` per axis: the
padding enters once through the effective `image.width`/`image.height` and a
second time in `Sprite.save_image`'s `x = image.node.x + image.width +
padding[1] + padding[3]`; so the canvas contains every padded right/bottom
edge but is not the smallest rectangle doing so. -/
theorem c4_canvas_amended (l : List PlacedRaw) :
    canvasOfImages (l.map fun r => (mkSpriteImage r.name r.bw r.bh r.padding, some r.node)) =
      some
        (l.foldl (fun acc r =>
          max acc (r.node.x + r.bw + 2 * (padGet r.padding 1 + padGet r.padding 3))) 0,
         l.foldl (fun acc r =>
          max acc (r.node.y + r.bh + 2 * (padGet r.padding 0 + padGet r.padding 2))) 0) :=
  canvasGo_raw l 0 0

/-- C5 counterexample.  The stem `cat_1-2-3-4-5` is not a run of 1–4
dash-separated integers, yet `Image._padding_info` recognises it (the regex
`^(\d+-?){,4}\d+$` admits up to five numbers: four `\d+-` groups plus the
final `\d+`) and the resulting padding is the unexpanded five-element
list. -/
theorem c5_padding_suffix_counterexample :
    paddingInfo ("cat_1-2-3-4-5".data) = [['1'], ['2'], ['3'], ['4'], ['5']] ∧
    imagePadding ("cat_1-2-3-4-5".data) ("0".data) false = .ok [1, 2, 3, 4, 5] ∧
    ¬ claimRecognized ("cat_1-2-3-4-5".data) := by
  decide

/-- C6.  Class-name derivation evaluated on the claim's own examples:
`cat.png` gives `sprite-animals-cat`; `cow_20.png` (underscore separator)
has its suffix consumed giving `sprite-animals-cow`; but for `cow-20.png`
the suffix is not consumed — `_padding_info` splits on `_`, not `-` — and
the class is `sprite-animals-cow-20`, contradicting the claim and the
docstring of `Image.class_name`. -/
theorem c6_class_name_derivation :
    classNameOf ("cat".data) false ("sprite".data) ("animals".data)
        = "sprite-animals-cat".data ∧
    classNameOf ("cow_20".data) false ("sprite".data) ("animals".data)
        = "sprite-animals-cow".data ∧
    classNameOf ("cow-20".data) false ("sprite".data) ("animals".data)
        = "sprite-animals-cow-20".data ∧
    classNameOf ("cow-20".data) false ("sprite".data) ("animals".data)
        ≠ "sprite-animals-cow".data := by
  decide

/-- C7 counterexample.  On a 1×2 bitmap whose pixel `(0,0)` is fully
transparent black `(0,0,0,0)` and whose pixel `(0,1)` is opaque,
`Image._crop_image` keeps row 0 — `(0,0,0,0) != TRANSPARENT` since
`TRANSPARENT` is `(255,255,255,0)` — while the claim's alpha-based tight
bounding box starts at row 1. -/
theorem c7_crop_counterexample :
    cropBox cPx 1 2 = (0, 0, 1, 2) ∧
    specAlphaBox cPx 1 2 = some (0, 1, 1, 2) ∧
    some (cropBox cPx 1 2) ≠ specAlphaBox cPx 1 2 := by
  decide

/-- C9 counterexample.  Two descriptors with tied `maxside` keys (10×5 and
5×10): enumerating them in the two possible orders yields different sorted
orders (the non-strict `__lt__` makes CPython's sort reverse a tied pair),
hence different canvases — 15×10 against 10×15 — and different per-image
offsets. -/
theorem c9_relayout_counterexample :
    [imgA, imgB].Perm [imgB, imgA] ∧
    layoutRun ("maxside".data) [imgA, imgB] =
      some (some (15, 10), [(imgB, some ⟨0, 0, 5, 10⟩), (imgA, some ⟨5, 0, 10, 5⟩)]) ∧
    layoutRun ("maxside".data) [imgB, imgA] =
      some (some (10, 15), [(imgA, some ⟨0, 0, 10, 5⟩), (imgB, some ⟨0, 5, 5, 10⟩)]) ∧
    layoutRun ("maxside".data) [imgA, imgB] ≠ layoutRun ("maxside".data) [imgB, imgA] :=
  ⟨List.Perm.swap _ _ _, by decide, by decide, by decide⟩

/-- A list's deduplication keeps its length exactly when there are no
duplicates (`len(set(class_names)) != len(images)` detects a repeat). -/
theorem dedup_length_eq_iff {α : Type} [DecidableEq α] (l : List α) :
    l.dedup.length = l.length ↔ l.Nodup := by
  constructor
  · intro h
    have hsub : l.dedup.Sublist l := List.dedup_sublist l
    have heq : l.dedup = l := hsub.eq_of_length h
    rw [← heq]
    exact List.nodup_dedup l
  · intro h
    rw [List.dedup_eq_self.mpr h]

/-- C8.  With a repeated class name, `Sprite.process` fails inside
`_locate_images` — before any `find`/`split`/`grow` — and the error carries
exactly the descriptors whose class name occurs more than once. -/
theorem c8_duplicate_class_names (alg : List Char) (images : List SpriteImage)
    (hdup : ¬ (images.map SpriteImage.className).Nodup) :
    spriteProcessFull alg images =
      .error (.multipleImagesWithSameName (duplicateImages images)) ∧
    ∀ i, i ∈ duplicateImages images ↔
      i ∈ images ∧ 1 < (images.map SpriteImage.className).count i.className := by
  have hne : images ≠ [] := by
    intro h
    rw [h] at hdup
    exact hdup (by simp)
  have hlen : images.length ≠ 0 := fun h => hne (List.length_eq_zero.mp h)
  have hdlen : ((images.map SpriteImage.className).dedup).length ≠ images.length := by
    intro h
    exact hdup ((dedup_length_eq_iff _).mp (by rw [h, List.length_map]))
  constructor
  · unfold spriteProcessFull locateImages
    rw [if_neg hlen, if_pos hdlen]
  · intro i
    simp only [duplicateImages, List.mem_filter, decide_eq_true_eq]

/-- Witness for `c8_duplicate_class_names`: two descriptors both named
`a`. -/
theorem c8_duplicate_class_names_witness :
    ¬ (([⟨"a".data, 1, 1, []⟩, ⟨"a".data, 2, 2, []⟩] : List SpriteImage).map
        SpriteImage.className).Nodup ∧
    spriteProcessFull ("maxside".data) [⟨"a".data, 1, 1, []⟩, ⟨"a".data, 2, 2, []⟩] =
      .error (.multipleImagesWithSameName
        (duplicateImages [⟨"a".data, 1, 1, []⟩, ⟨"a".data, 2, 2, []⟩])) :=
  ⟨by decide, (c8_duplicate_class_names _ _ (by decide)).1⟩

/-- The token mapper never raises the missing-default-padding error. -/
theorem mapInts_ne_attr : ∀ l : List (List Char),
    mapInts l ≠ .error .attributeErrorDefaultPadding := by
  intro l
  induction l with
  | nil => simp [mapInts]
  | cons s rest ih =>
    intro hc
    simp only [mapInts] at hc
    rcases hv : parseIntTok s with _ | v <;> rw [hv] at hc
    · rcases h : mapInts rest with e | vs <;> rw [h] at hc
      · injection hc with hc2
        exact absurd hc2 (by decide)
      · injection hc with hc2
        exact absurd hc2 (by decide)
    · rcases h : mapInts rest with e | vs <;> rw [h] at hc
      · injection hc with hc2
        rw [hc2] at h
        exact ih h
      · exact absurd hc (by simp)

/-- On a nonempty token list `_generate_padding` cannot reach the
`DEFAULT_PADDING` branch. -/
theorem generatePaddingList_ne_attr (l : List (List Char)) (hl : l ≠ []) :
    generatePaddingList l ≠ .error .attributeErrorDefaultPadding := by
  unfold generatePaddingList
  split_ifs with h3 h2 h1 h0
  · exact mapInts_ne_attr _
  · exact mapInts_ne_attr _
  · exact mapInts_ne_attr _
  · exact absurd (List.length_eq_zero.mp h0) hl
  · exact mapInts_ne_attr _

/-- C10.  Padding is partial on an empty default: with no recognised
filename suffix and a token-free configured padding string, `Image.padding`
reaches `[self.DEFAULT_PADDING] * 4`, an attribute `Image` never defines
(an `AttributeError`); with any configured token, or with a recognised
suffix (and filename paddings not ignored), that branch is unreachable. -/
theorem c10_empty_default_padding :
    (∀ (stem conf : List Char) (ignoreFP : Bool),
      paddingInfo stem = [] → splitWs (removePx conf) = [] →
      imagePadding stem conf ignoreFP = .error .attributeErrorDefaultPadding) ∧
    (∀ (stem conf : List Char) (ignoreFP : Bool),
      splitWs (removePx conf) ≠ [] →
      imagePadding stem conf ignoreFP ≠ .error .attributeErrorDefaultPadding) ∧
    (∀ stem conf : List Char,
      paddingInfo stem ≠ [] →
      imagePadding stem conf false ≠ .error .attributeErrorDefaultPadding) := by
  refine ⟨?_, ?_, ?_⟩
  · intro stem conf ignoreFP hinfo htok
    unfold imagePadding
    rw [if_pos (Or.inl (by rw [hinfo]; rfl))]
    simp only [generatePadding]
    rw [htok]
    rfl
  · intro stem conf ignoreFP htok
    unfold imagePadding
    split_ifs with hcond
    · exact generatePaddingList_ne_attr _ htok
    · have hinfo : paddingInfo stem ≠ [] := by
        intro h
        exact hcond (Or.inl (by rw [h]; rfl))
      exact generatePaddingList_ne_attr _ hinfo
  · intro stem conf hinfo
    unfold imagePadding
    rw [if_neg ?_]
    · exact generatePaddingList_ne_attr _ hinfo
    · rintro (h | h)
      · exact hinfo (List.length_eq_zero.mp h)
      · exact absurd h (by decide)

/-- Witness for `c10_empty_default_padding`: stem `cat` with configured
padding `""` raises, with configured padding `10` it does not. -/
theorem c10_empty_default_padding_witness :
    paddingInfo ("cat".data) = [] ∧ splitWs (removePx ("".data)) = [] ∧
    imagePadding ("cat".data) ("".data) false = .error .attributeErrorDefaultPadding ∧
    splitWs (removePx ("10".data)) ≠ [] ∧
    imagePadding ("cat".data) ("10".data) false ≠ .error .attributeErrorDefaultPadding :=
  ⟨by decide, by decide,
    c10_empty_default_padding.1 ("cat".data) ("".data) false (by decide) (by decide),
    by decide,
    c10_empty_default_padding.2.1 ("cat".data) ("10".data) false (by decide)⟩

/-- `Image.__lt__` is the non-strict comparison of the ordering keys. -/
theorem ltImage_eq_key (alg : List Char) (a b : SpriteImage) :
    ltImage alg a b = decide (keyOf alg a ≤ keyOf alg b) := by
  unfold ltImage keyOf
  split_ifs <;> rfl

/-- An in-range `getD` read is a member of the list. -/
theorem getD_mem_of_lt {α : Type} (d : α) :
    ∀ (l : List α) (i : Nat), i < l.length → l.getD i d ∈ l := by
  intro l
  induction l with
  | nil => intro i hi; exact absurd hi (by simp)
  | cons c rest ih =>
    intro i hi
    cases i with
    | zero =>
      rw [List.getD_cons_zero]
      exact List.mem_cons_self c rest
    | succ n =>
      rw [List.getD_cons_succ]
      refine List.mem_cons_of_mem c (ih n ?_)
      simp only [List.length_cons] at hi
      omega

/-- On a weakly key-sorted list, `getD` reads are key-monotone. -/
theorem sorted_key_getD {α : Type} (k : α → Int) (d : α) :
    ∀ (l : List α), (l.Pairwise fun a b => k a ≤ k b) →
      ∀ i j : Nat, i ≤ j → j < l.length → k (l.getD i d) ≤ k (l.getD j d) := by
  intro l
  induction l with
  | nil => intro _ i j _ hj; exact absurd hj (by simp)
  | cons c rest ih =>
    intro hs i j hij hj
    rw [List.pairwise_cons] at hs
    cases i with
    | zero =>
      cases j with
      | zero => exact le_refl _
      | succ m =>
        rw [List.getD_cons_zero, List.getD_cons_succ]
        refine hs.1 _ (getD_mem_of_lt d rest m ?_)
        simp only [List.length_cons] at hj
        omega
    | succ n =>
      cases j with
      | zero => exact absurd hij (by omega)
      | succ m =>
        rw [List.getD_cons_succ, List.getD_cons_succ]
        refine ih hs.2 n m (by omega) ?_
        simp only [List.length_cons] at hj
        omega

/-- A property holding at every in-range `getD` read holds at every member. -/
theorem all_of_getD {α : Type} (d : α) (P : α → Prop) :
    ∀ (l : List α), (∀ i, i < l.length → P (l.getD i d)) → ∀ a ∈ l, P a := by
  intro l
  induction l with
  | nil => intro _ a ha; exact absurd ha (by simp)
  | cons c rest ih =>
    intro hp a ha
    rcases List.mem_cons.mp ha with ha | ha
    · have h0 := hp 0 (by simp)
      rw [List.getD_cons_zero] at h0
      rw [ha]
      exact h0
    · refine ih (fun i hi => ?_) a ha
      have hsucc := hp (i + 1) (by simp only [List.length_cons]; omega)
      rw [List.getD_cons_succ] at hsucc
      exact hsucc

/-- A property holding at the first `p` `getD` reads holds on `take p`. -/
theorem all_take_of_getD {α : Type} (d : α) (P : α → Prop) :
    ∀ (l : List α) (p : Nat), (∀ i, i < p → P (l.getD i d)) →
      ∀ a ∈ l.take p, P a := by
  intro l
  induction l with
  | nil => intro p _ a ha; rw [List.take_nil] at ha; exact absurd ha (by simp)
  | cons c rest ih =>
    intro p hp a ha
    cases p with
    | zero => rw [List.take_zero] at ha; exact absurd ha (by simp)
    | succ q =>
      rw [List.take_succ_cons] at ha
      rcases List.mem_cons.mp ha with ha | ha
      · have h0 := hp 0 (by omega)
        rw [List.getD_cons_zero] at h0
        rw [ha]
        exact h0
      · refine ih q (fun i hi => ?_) a ha
        have hsucc := hp (i + 1) (by omega)
        rw [List.getD_cons_succ] at hsucc
        exact hsucc

/-- A property holding at the `getD` reads from `p` on holds on `drop p`. -/
theorem all_drop_of_getD {α : Type} (d : α) (P : α → Prop) :
    ∀ (l : List α) (p : Nat), (∀ i, p ≤ i → i < l.length → P (l.getD i d)) →
      ∀ a ∈ l.drop p, P a := by
  intro l
  induction l with
  | nil => intro p _ a ha; rw [List.drop_nil] at ha; exact absurd ha (by simp)
  | cons c rest ih =>
    intro p hp a ha
    cases p with
    | zero =>
      rw [List.drop_zero] at ha
      exact all_of_getD d P (c :: rest) (fun i hi => hp i (Nat.zero_le i) hi) a ha
    | succ q =>
      rw [List.drop_succ_cons] at ha
      refine ih q (fun i hqi hilen => ?_) a ha
      have hsucc := hp (i + 1) (by omega) (by simp only [List.length_cons]; omega)
      rw [List.getD_cons_succ] at hsucc
      exact hsucc

/-- Unfolding equation of `binPos` on a nonempty search interval. -/
theorem binPos_unfold_lt {α : Type} (lt : α → α → Bool) (pivot : α)
    (a : List α) (l r : Nat) (h : l < r) :
    binPos lt pivot a l r =
      if lt pivot (a.getD ((l + r) / 2) pivot) then
        binPos lt pivot a l ((l + r) / 2)
      else binPos lt pivot a ((l + r) / 2 + 1) r := by
  rw [binPos.eq_def, dif_pos h]

/-- Unfolding equation of `binPos` on an empty search interval. -/
theorem binPos_unfold_ge {α : Type} (lt : α → α → Bool) (pivot : α)
    (a : List α) (l r : Nat) (h : ¬ l < r) :
    binPos lt pivot a l r = l := by
  rw [binPos.eq_def, dif_neg h]

/-- Correctness of CPython's `binarysort` binary search on a weakly
key-sorted list: the returned position lies in the interval, every element
before it has a key strictly below the pivot key, and every element from it
on has a key at least the pivot key. -/
theorem binPos_spec {α : Type} (k : α → Int) (x : α) (pre : List α)
    (hs : ∀ i j : Nat, i ≤ j → j < pre.length →
      k (pre.getD i x) ≤ k (pre.getD j x)) :
    ∀ (fuel l r : Nat), r - l ≤ fuel → l ≤ r → r ≤ pre.length →
      (∀ i, i < l → k (pre.getD i x) < k x) →
      (∀ i, r ≤ i → i < pre.length → k x ≤ k (pre.getD i x)) →
      l ≤ binPos (fun p q => decide (k p ≤ k q)) x pre l r ∧
        binPos (fun p q => decide (k p ≤ k q)) x pre l r ≤ r ∧
        (∀ i, i < binPos (fun p q => decide (k p ≤ k q)) x pre l r →
          k (pre.getD i x) < k x) ∧
        (∀ i, binPos (fun p q => decide (k p ≤ k q)) x pre l r ≤ i →
          i < pre.length → k x ≤ k (pre.getD i x)) := by
  intro fuel
  induction fuel with
  | zero =>
    intro l r hfuel hlr hrlen hleft hright
    have hge : ¬ l < r := by omega
    rw [binPos_unfold_ge _ _ _ _ _ hge]
    exact ⟨le_refl l, hlr, hleft, fun i hi hilen => hright i (by omega) hilen⟩
  | succ f ih =>
    intro l r hfuel hlr hrlen hleft hright
    by_cases hlt : l < r
    · rw [binPos_unfold_lt _ _ _ _ _ hlt]
      have hmid : (l + r) / 2 < r := by omega
      by_cases hcmp : k x ≤ k (pre.getD ((l + r) / 2) x)
      · rw [if_pos (decide_eq_true hcmp)]
        obtain ⟨h1, h2, h3, h4⟩ :=
          ih l ((l + r) / 2) (by omega) (by omega) (by omega) hleft
            (fun i hmi hilen => le_trans hcmp (hs ((l + r) / 2) i hmi hilen))
        exact ⟨h1, le_trans h2 (by omega), h3, h4⟩
      · rw [if_neg (fun hd => hcmp (of_decide_eq_true hd))]
        have hcm : k (pre.getD ((l + r) / 2) x) < k x := by omega
        obtain ⟨h1, h2, h3, h4⟩ :=
          ih ((l + r) / 2 + 1) r (by omega) (by omega) hrlen
            (fun i hi =>
              lt_of_le_of_lt (hs i ((l + r) / 2) (by omega) (by omega)) hcm)
            hright
        exact ⟨le_trans (by omega) h1, h2, h3, h4⟩
    · rw [binPos_unfold_ge _ _ _ _ _ hlt]
      exact ⟨le_refl l, hlr, hleft, fun i hi hilen => hright i (by omega) hilen⟩

/-- One binary-insertion step keeps the prefix weakly key-sorted and
permutes in the new element. -/
theorem binInsert_spec {α : Type} (k : α → Int) (x : α) (pre : List α)
    (hs : pre.Pairwise fun a b => k a ≤ k b) :
    ((binInsert (fun p q => decide (k p ≤ k q)) pre x).Pairwise
      fun a b => k a ≤ k b) ∧
      (binInsert (fun p q => decide (k p ≤ k q)) pre x).Perm (x :: pre) := by
  obtain ⟨-, -, hleft, hright⟩ :=
    binPos_spec k x pre (sorted_key_getD k x pre hs) pre.length 0 pre.length
      (by omega) (by omega) (le_refl _)
      (fun i hi => absurd hi (by omega))
      (fun i hi hilen => absurd hilen (by omega))
  have hbi : binInsert (fun p q => decide (k p ≤ k q)) pre x =
      pre.take (binPos (fun p q => decide (k p ≤ k q)) x pre 0 pre.length) ++
        x :: pre.drop (binPos (fun p q => decide (k p ≤ k q)) x pre 0 pre.length) :=
    rfl
  constructor
  · rw [hbi, List.pairwise_append]
    refine ⟨hs.sublist (List.take_sublist _ _), ?_, ?_⟩
    · rw [List.pairwise_cons]
      exact ⟨all_drop_of_getD x (fun c => k x ≤ k c) pre _ hright,
        hs.sublist (List.drop_sublist _ _)⟩
    · intro a ha b hb
      have hak : k a < k x :=
        all_take_of_getD x (fun c => k c < k x) pre _ hleft a ha
      rcases List.mem_cons.mp hb with hb | hb
      · rw [hb]
        exact le_of_lt hak
      · exact le_of_lt (lt_of_lt_of_le hak
          (all_drop_of_getD x (fun c => k x ≤ k c) pre _ hright b hb))
  · rw [hbi]
    refine List.perm_middle.trans ?_
    rw [List.take_append_drop]

/-- Folding binary insertion over the tail keeps the accumulated list weakly
key-sorted and yields a permutation of accumulator plus tail. -/
theorem foldl_binInsert_spec {α : Type} (k : α → Int) :
    ∀ (rest acc : List α), (acc.Pairwise fun a b => k a ≤ k b) →
      ((rest.foldl (binInsert fun p q => decide (k p ≤ k q)) acc).Pairwise
        fun a b => k a ≤ k b) ∧
        (rest.foldl (binInsert fun p q => decide (k p ≤ k q)) acc).Perm
          (acc ++ rest) := by
  intro rest
  induction rest with
  | nil =>
    intro acc hacc
    refine ⟨hacc, ?_⟩
    rw [List.foldl_nil, List.append_nil]
  | cons x rest2 ih =>
    intro acc hacc
    rw [List.foldl_cons]
    obtain ⟨hsort, hperm⟩ := binInsert_spec k x acc hacc
    obtain ⟨hsort2, hperm2⟩ :=
      ih (binInsert (fun p q => decide (k p ≤ k q)) acc x) hsort
    refine ⟨hsort2, ?_⟩
    have h3 : ((x :: acc) ++ rest2).Perm (acc ++ x :: rest2) := by
      rw [List.cons_append]
      exact List.perm_middle.symm
    exact hperm2.trans ((hperm.append_right rest2).trans h3)

/-- The detected ascending run concatenates back to the input, is weakly
key-sorted, and its elements dominate the starting key. -/
theorem runAsc_spec {α : Type} (k : α → Int) :
    ∀ (l : List α) (cur : α) (run rest2 : List α),
      runAsc (fun p q => decide (k p ≤ k q)) cur l = (run, rest2) →
      run ++ rest2 = cur :: l ∧ (run.Pairwise fun a b => k a ≤ k b) ∧
        ∀ b ∈ run, k cur ≤ k b := by
  intro l
  induction l with
  | nil =>
    intro cur run rest2 h
    simp only [runAsc, Prod.mk.injEq] at h
    obtain ⟨h1, h2⟩ := h
    subst h1
    subst h2
    refine ⟨rfl, by simp, ?_⟩
    intro b hb
    rw [List.mem_singleton.mp hb]
  | cons nxt rest ih =>
    intro cur run rest2 h
    simp only [runAsc] at h
    by_cases hc : k nxt ≤ k cur
    · rw [if_pos (decide_eq_true hc)] at h
      rw [Prod.mk.injEq] at h
      obtain ⟨h1, h2⟩ := h
      subst h1
      subst h2
      refine ⟨rfl, by simp, ?_⟩
      intro b hb
      rw [List.mem_singleton.mp hb]
    · rw [if_neg (fun hd => hc (of_decide_eq_true hd))] at h
      rcases hpr : runAsc (fun p q => decide (k p ≤ k q)) nxt rest with ⟨run2, rest3⟩
      rw [hpr] at h
      dsimp only at h
      rw [Prod.mk.injEq] at h
      obtain ⟨h1, h2⟩ := h
      subst h1
      subst h2
      obtain ⟨hcat, hsort, hall⟩ := ih nxt run2 rest3 hpr
      have hlt : k cur < k nxt := by omega
      refine ⟨?_, ?_, ?_⟩
      · rw [List.cons_append, hcat]
      · rw [List.pairwise_cons]
        exact ⟨fun b hb => le_trans (le_of_lt hlt) (hall b hb), hsort⟩
      · intro b hb
        rcases List.mem_cons.mp hb with hb | hb
        · rw [hb]
        · exact le_trans (le_of_lt hlt) (hall b hb)

/-- The detected descending run concatenates back to the input, is weakly
key-sorted downwards, and its elements are bounded by the starting key. -/
theorem runDesc_spec {α : Type} (k : α → Int) :
    ∀ (l : List α) (cur : α) (run rest2 : List α),
      runDesc (fun p q => decide (k p ≤ k q)) cur l = (run, rest2) →
      run ++ rest2 = cur :: l ∧ (run.Pairwise fun a b => k b ≤ k a) ∧
        ∀ b ∈ run, k b ≤ k cur := by
  intro l
  induction l with
  | nil =>
    intro cur run rest2 h
    simp only [runDesc, Prod.mk.injEq] at h
    obtain ⟨h1, h2⟩ := h
    subst h1
    subst h2
    refine ⟨rfl, by simp, ?_⟩
    intro b hb
    rw [List.mem_singleton.mp hb]
  | cons nxt rest ih =>
    intro cur run rest2 h
    simp only [runDesc] at h
    by_cases hc : k nxt ≤ k cur
    · rw [if_pos (decide_eq_true hc)] at h
      rcases hpr : runDesc (fun p q => decide (k p ≤ k q)) nxt rest with ⟨run2, rest3⟩
      rw [hpr] at h
      dsimp only at h
      rw [Prod.mk.injEq] at h
      obtain ⟨h1, h2⟩ := h
      subst h1
      subst h2
      obtain ⟨hcat, hsort, hall⟩ := ih nxt run2 rest3 hpr
      refine ⟨?_, ?_, ?_⟩
      · rw [List.cons_append, hcat]
      · rw [List.pairwise_cons]
        exact ⟨fun b hb => le_trans (hall b hb) hc, hsort⟩
      · intro b hb
        rcases List.mem_cons.mp hb with hb | hb
        · rw [hb]
        · exact le_trans (hall b hb) hc
    · rw [if_neg (fun hd => hc (of_decide_eq_true hd))] at h
      rw [Prod.mk.injEq] at h
      obtain ⟨h1, h2⟩ := h
      subst h1
      subst h2
      refine ⟨rfl, by simp, ?_⟩
      intro b hb
      rw [List.mem_singleton.mp hb]

/-- CPython's small-list sort with the `<=`-shaped comparator always returns
a weakly key-sorted permutation of its input. -/
theorem pySort_spec {α : Type} (k : α → Int) (l : List α) :
    ((pySort (fun p q => decide (k p ≤ k q)) l).Pairwise fun a b => k a ≤ k b) ∧
      (pySort (fun p q => decide (k p ≤ k q)) l).Perm l := by
  rcases l with _ | ⟨a, l2⟩
  · exact ⟨List.Pairwise.nil, List.Perm.nil⟩
  rcases l2 with _ | ⟨b, rest⟩
  · constructor
    · show ([a] : List α).Pairwise fun p q => k p ≤ k q
      simp
    · show ([a] : List α).Perm [a]
      exact List.Perm.refl _
  by_cases hc : k b ≤ k a
  · rcases hrd : runDesc (fun p q => decide (k p ≤ k q)) a (b :: rest)
      with ⟨run, rest2⟩
    have hps : pySort (fun p q => decide (k p ≤ k q)) (a :: b :: rest) =
        rest2.foldl (binInsert fun p q => decide (k p ≤ k q)) run.reverse := by
      simp only [pySort]
      rw [if_pos (decide_eq_true hc), hrd]
    obtain ⟨hcat, hdesc, -⟩ := runDesc_spec k (b :: rest) a run rest2 hrd
    have hsortrev : run.reverse.Pairwise fun p q => k p ≤ k q :=
      List.pairwise_reverse.mpr hdesc
    obtain ⟨hs2, hp2⟩ := foldl_binInsert_spec k rest2 run.reverse hsortrev
    rw [hps]
    refine ⟨hs2, hp2.trans ?_⟩
    have hrp : (run.reverse ++ rest2).Perm (run ++ rest2) :=
      (List.reverse_perm run).append_right rest2
    rw [hcat] at hrp
    exact hrp
  · rcases hra : runAsc (fun p q => decide (k p ≤ k q)) a (b :: rest)
      with ⟨run, rest2⟩
    have hps : pySort (fun p q => decide (k p ≤ k q)) (a :: b :: rest) =
        rest2.foldl (binInsert fun p q => decide (k p ≤ k q)) run := by
      simp only [pySort]
      rw [if_neg (fun hd => hc (of_decide_eq_true hd)), hra]
    obtain ⟨hcat, hasc, -⟩ := runAsc_spec k (b :: rest) a run rest2 hra
    obtain ⟨hs2, hp2⟩ := foldl_binInsert_spec k rest2 run hasc
    rw [hps]
    refine ⟨hs2, hp2.trans ?_⟩
    rw [hcat]

/-- With pairwise-distinct keys the sorted order is unique, so CPython's
reverse-sort gives the same output on any two permutations of a list. -/
theorem pySortedReverse_eq_of_perm {α : Type} (k : α → Int) (l1 l2 : List α)
    (hperm : l1.Perm l2) (hdist : l1.Pairwise fun a b => k a ≠ k b) :
    pySortedReverse (fun p q => decide (k p ≤ k q)) l1 =
      pySortedReverse (fun p q => decide (k p ≤ k q)) l2 := by
  obtain ⟨hs1, hp1⟩ := pySort_spec k l1.reverse
  obtain ⟨hs2, hp2⟩ := pySort_spec k l2.reverse
  have hchain : (pySort (fun p q => decide (k p ≤ k q)) l1.reverse).Perm
      (pySort (fun p q => decide (k p ≤ k q)) l2.reverse) :=
    hp1.trans ((List.reverse_perm l1).trans
      (hperm.trans ((List.reverse_perm l2).symm.trans hp2.symm)))
  have hsymm : ∀ {a b : α}, k a ≠ k b → k b ≠ k a :=
    fun h he => h he.symm
  have hd1 : (pySort (fun p q => decide (k p ≤ k q)) l1.reverse).Pairwise
      fun a b => k a ≠ k b :=
    (hp1.pairwise_iff hsymm).mpr
      (((List.reverse_perm l1).pairwise_iff hsymm).mpr hdist)
  have hd2 : (pySort (fun p q => decide (k p ≤ k q)) l2.reverse).Pairwise
      fun a b => k a ≠ k b :=
    (hchain.pairwise_iff hsymm).mp hd1
  have hst1 : (pySort (fun p q => decide (k p ≤ k q)) l1.reverse).Pairwise
      fun a b : α => k a < k b :=
    (List.pairwise_and_iff.mpr ⟨hs1, hd1⟩).imp fun h => lt_of_le_of_ne h.1 h.2
  have hst2 : (pySort (fun p q => decide (k p ≤ k q)) l2.reverse).Pairwise
      fun a b : α => k a < k b :=
    (List.pairwise_and_iff.mpr ⟨hs2, hd2⟩).imp fun h => lt_of_le_of_ne h.1 h.2
  haveI : IsAntisymm α fun a b => k a < k b :=
    ⟨fun a b h1 h2 => absurd (lt_trans h1 h2) (lt_irrefl _)⟩
  have heq : pySort (fun p q => decide (k p ≤ k q)) l1.reverse =
      pySort (fun p q => decide (k p ≤ k q)) l2.reverse :=
    List.eq_of_perm_of_sorted hchain hst1 hst2
  unfold pySortedReverse
  rw [heq]

/-- C9 amended.  Re-running the layout engine on the same unordered
descriptor set — any number of descriptors, enumerated in any order —
yields an identical final canvas size and identical per-image offsets
provided no two descriptors have equal ordering keys; with tied keys the
counterexample shows canvas and offsets may change with the order. -/
theorem c9_relayout_amended (alg : List Char) (l1 l2 : List SpriteImage)
    (hperm : l1.Perm l2)
    (hdist : l1.Pairwise fun a b => keyOf alg a ≠ keyOf alg b) :
    layoutRun alg l1 = layoutRun alg l2 := by
  have hlt : ltImage alg = fun p q => decide (keyOf alg p ≤ keyOf alg q) :=
    funext fun p => funext fun q => ltImage_eq_key alg p q
  unfold layoutRun
  rw [hlt, pySortedReverse_eq_of_perm (keyOf alg) l1 l2 hperm hdist]

/-- Witness for `c9_relayout_amended`: three descriptors with pairwise
distinct `maxside` keys (3, 2 and 5), enumerated in two different orders. -/
theorem c9_relayout_amended_witness :
    ([imgA3, imgB2, imgC5] : List SpriteImage).Perm [imgB2, imgA3, imgC5] ∧
    ([imgA3, imgB2, imgC5].Pairwise fun a b =>
      keyOf ("maxside".data) a ≠ keyOf ("maxside".data) b) ∧
    layoutRun ("maxside".data) [imgA3, imgB2, imgC5] =
      layoutRun ("maxside".data) [imgB2, imgA3, imgC5] :=
  ⟨List.Perm.swap _ _ _, by decide,
    c9_relayout_amended ("maxside".data) _ _ (List.Perm.swap _ _ _) (by decide)⟩

/-- Unfolding equation for `matchNums`. -/
theorem matchNums_unfold (k : Nat) (cs : List Char) :
    matchNums k cs =
      if (cs.takeWhile Char.isDigit).isEmpty then false
      else
        match cs.dropWhile Char.isDigit with
        | [] => true
        | c :: rest2 =>
          if c = '-' then
            match k with
            | 0 => false
            | k2 + 1 => matchNums k2 rest2
          else false :=
  matchNums.eq_def k cs

/-- Elements of `takeWhile p` satisfy `p`. -/
theorem mem_takeWhile_pred (p : Char → Bool) :
    ∀ (l : List Char) (a : Char), a ∈ l.takeWhile p → p a = true := by
  intro l
  induction l with
  | nil => intro a ha; simp [List.takeWhile] at ha
  | cons c rest ih =>
    intro a ha
    simp only [List.takeWhile] at ha
    rcases hpc : p c with _ | _ <;> rw [hpc] at ha
    · simp at ha
    · rcases List.mem_cons.mp ha with ha | ha
      · rw [ha]; exact hpc
      · exact ih a ha

/-- The head of a nonempty `dropWhile p` fails `p`. -/
theorem dropWhile_head_not (p : Char → Bool) :
    ∀ (l : List Char) (c : Char) (rest : List Char),
      l.dropWhile p = c :: rest → p c = false := by
  intro l
  induction l with
  | nil => intro c rest h; simp [List.dropWhile] at h
  | cons a l2 ih =>
    intro c rest h
    simp only [List.dropWhile] at h
    rcases hpa : p a with _ | _ <;> rw [hpa] at h
    · injection h with h1 h2
      rw [← h1]
      exact hpa
    · exact ih c rest h

/-- `splitOnChar` always yields at least one part. -/
theorem splitOnChar_ne_nil (c : Char) : ∀ s : List Char, splitOnChar c s ≠ [] := by
  intro s
  cases s with
  | nil => simp [splitOnChar]
  | cons ch rest =>
    simp only [splitOnChar]
    rcases h : splitOnChar c rest with _ | ⟨p, ps⟩
    · simp
    · split_ifs <;> simp

/-- `splitOnChar` over a separator-free prefix prepends it to the first
part. -/
theorem splitOnChar_append_left (c : Char) :
    ∀ (d t : List Char), c ∉ d →
      splitOnChar c (d ++ t) =
        (d ++ (splitOnChar c t).headD []) :: (splitOnChar c t).tail := by
  intro d
  induction d with
  | nil =>
    intro t _
    simp only [List.nil_append]
    rcases h : splitOnChar c t with _ | ⟨p, ps⟩
    · exact absurd h (splitOnChar_ne_nil c t)
    · simp
  | cons ch d2 ih =>
    intro t hc
    have hch : ch ≠ c := fun h => hc (by rw [h]; exact List.mem_cons_self _ _)
    have hih := ih t (fun h => hc (List.mem_cons_of_mem _ h))
    have heq : splitOnChar c ((ch :: d2) ++ t) =
        match splitOnChar c (d2 ++ t) with
        | [] => [[]]
        | p :: ps => if ch = c then [] :: p :: ps else (ch :: p) :: ps := rfl
    rw [heq]
    simp only [hih]
    rw [if_neg hch]
    simp

/-- `splitOnChar` of a separator-free list is that single part. -/
theorem splitOnChar_no_sep (c : Char) (d : List Char) (hnod : c ∉ d) :
    splitOnChar c d = [d] := by
  have h := splitOnChar_append_left c d [] hnod
  rw [List.append_nil] at h
  rw [h]
  simp [splitOnChar]

/-- Splitting after a digit run followed by a dash. -/
theorem splitOnChar_digit_dash (d r2 : List Char)
    (hd : ∀ a ∈ d, Char.isDigit a = true) :
    splitOnChar '-' (d ++ '-' :: r2) = d :: splitOnChar '-' r2 := by
  have hnod : '-' ∉ d := fun hmem => absurd (hd '-' hmem) (by decide)
  have hsingle : splitOnChar '-' ('-' :: r2) = [] :: splitOnChar '-' r2 := by
    rcases hsp : splitOnChar '-' r2 with _ | ⟨p, ps⟩
    · exact absurd hsp (splitOnChar_ne_nil _ _)
    · simp [splitOnChar, hsp]
  rw [splitOnChar_append_left '-' d ('-' :: r2) hnod, hsingle]
  rcases hsp : splitOnChar '-' r2 with _ | ⟨p, ps⟩
  · exact absurd hsp (splitOnChar_ne_nil _ _)
  · simp

/-- Splitting after a digit run followed by a non-dash character. -/
theorem splitOnChar_digit_other (d : List Char) (c : Char) (r2 : List Char)
    (hnod : '-' ∉ d) (hc : c ≠ '-') :
    ∃ q qs, splitOnChar '-' (d ++ c :: r2) = (d ++ c :: q) :: qs := by
  rw [splitOnChar_append_left '-' d (c :: r2) hnod]
  rcases hsp : splitOnChar '-' r2 with _ | ⟨p, ps⟩
  · exact absurd hsp (splitOnChar_ne_nil _ _)
  · have hstep : splitOnChar '-' (c :: r2) = (c :: p) :: ps := by
      simp only [splitOnChar, hsp, if_neg hc]
    rw [hstep]
    exact ⟨p, ps, by simp⟩

/-- A stem whose leading character run has no digit cannot consist of
nonempty all-digit dash-separated parts. -/
theorem run_empty_bad (s : List Char) (htw : s.takeWhile Char.isDigit = []) :
    ¬ ∀ p ∈ splitOnChar '-' s, p ≠ [] ∧ p.all Char.isDigit = true := by
  intro hall
  cases s with
  | nil =>
    have := (hall [] (by simp [splitOnChar])).1
    exact this rfl
  | cons ch s2 =>
    have hdig : Char.isDigit ch = false := by
      simp only [List.takeWhile] at htw
      rcases h : Char.isDigit ch with _ | _
      · rfl
      · rw [h] at htw; simp at htw
    rcases hsp : splitOnChar '-' s2 with _ | ⟨p, ps⟩
    · exact absurd hsp (splitOnChar_ne_nil _ _)
    · by_cases hch : ch = '-'
      · have hmem : ([] : List Char) ∈ splitOnChar '-' (ch :: s2) := by
          simp only [splitOnChar, hsp, if_pos hch]
          exact List.mem_cons_self _ _
        exact (hall [] hmem).1 rfl
      · have hmem : (ch :: p) ∈ splitOnChar '-' (ch :: s2) := by
          simp only [splitOnChar, hsp, if_neg hch]
          exact List.mem_cons_self _ _
        have hbad := (hall _ hmem).2
        rw [List.all_cons, hdig] at hbad
        simp at hbad

/-- A matcher call on a stem with no leading digit is false. -/
theorem matchNums_empty_run (k : Nat) (s : List Char)
    (htw : s.takeWhile Char.isDigit = []) : matchNums k s = false := by
  rw [matchNums_unfold, htw]
  rfl

/-- A matcher call on a pure digit run (nonempty, nothing after) is true. -/
theorem matchNums_run_end (k : Nat) (s : List Char) (c0 : Char) (d2 : List Char)
    (htw : s.takeWhile Char.isDigit = c0 :: d2)
    (hdw : s.dropWhile Char.isDigit = []) : matchNums k s = true := by
  rw [matchNums_unfold, htw, hdw]
  rfl

/-- After the digit run, a dash consumes one group allowance. -/
theorem matchNums_dash_succ (k : Nat) (s r2 : List Char) (c0 : Char) (d2 : List Char)
    (htw : s.takeWhile Char.isDigit = c0 :: d2)
    (hdw : s.dropWhile Char.isDigit = '-' :: r2) :
    matchNums (k + 1) s = matchNums k r2 := by
  rw [matchNums_unfold, htw, hdw]
  rfl

/-- After the digit run, a dash with no allowance left fails. -/
theorem matchNums_dash_zero (s r2 : List Char) (c0 : Char) (d2 : List Char)
    (htw : s.takeWhile Char.isDigit = c0 :: d2)
    (hdw : s.dropWhile Char.isDigit = '-' :: r2) : matchNums 0 s = false := by
  rw [matchNums_unfold, htw, hdw]
  rfl

/-- After the digit run, any other character fails the matcher. -/
theorem matchNums_other (k : Nat) (s r2 : List Char) (c : Char) (hc : c ≠ '-')
    (c0 : Char) (d2 : List Char)
    (htw : s.takeWhile Char.isDigit = c0 :: d2)
    (hdw : s.dropWhile Char.isDigit = c :: r2) : matchNums k s = false := by
  rw [matchNums_unfold, htw, hdw]
  show (if c = '-' then
      (match k with
       | 0 => false
       | k2 + 1 => matchNums k2 r2) else false) = false
  rw [if_neg hc]

/-- Characterisation of the regex `^(\d+-?){,k}\d+$`: a string matches with
allowance `k` iff it splits on dashes into at most `k + 1` parts, all
nonempty and all digits. -/
theorem matchNums_iff : ∀ (k : Nat) (s : List Char),
    matchNums k s = true ↔
      ((splitOnChar '-' s).length ≤ k + 1 ∧
        ∀ p ∈ splitOnChar '-' s, p ≠ [] ∧ p.all Char.isDigit = true) := by
  intro k
  induction k with
  | zero =>
    intro s
    rcases htw : s.takeWhile Char.isDigit with _ | ⟨c0, d2⟩
    · rw [matchNums_empty_run 0 s htw]
      simp only [Bool.false_eq_true, false_iff]
      rintro ⟨_, hall⟩
      exact run_empty_bad s htw hall
    · have hdig : ∀ a ∈ c0 :: d2, Char.isDigit a = true :=
        fun a ha => mem_takeWhile_pred _ s a (htw ▸ ha)
      have hnod : '-' ∉ (c0 :: d2) := fun hm => absurd (hdig '-' hm) (by decide)
      have hs_eq : s = (c0 :: d2) ++ s.dropWhile Char.isDigit := by
        conv_lhs => rw [← List.takeWhile_append_dropWhile (p := Char.isDigit) (l := s)]
        rw [htw]
      rcases hdw : s.dropWhile Char.isDigit with _ | ⟨c, r2⟩
      · rw [hdw, List.append_nil] at hs_eq
        have hparts : splitOnChar '-' s = [c0 :: d2] := by
          rw [hs_eq]; exact splitOnChar_no_sep _ _ hnod
        rw [matchNums_run_end 0 s c0 d2 htw hdw, hparts]
        constructor
        · intro _
          refine ⟨by simp, ?_⟩
          intro p hp
          simp only [List.mem_singleton] at hp
          subst hp
          exact ⟨by simp, List.all_eq_true.mpr hdig⟩
        · intro _; rfl
      · have hc : Char.isDigit c = false := dropWhile_head_not _ s c r2 hdw
        rw [hdw] at hs_eq
        by_cases hceq : c = '-'
        · subst hceq
          have hparts : splitOnChar '-' s = (c0 :: d2) :: splitOnChar '-' r2 := by
            rw [hs_eq]; exact splitOnChar_digit_dash _ _ hdig
          rw [matchNums_dash_zero s r2 c0 d2 htw hdw, hparts]
          simp only [Bool.false_eq_true, false_iff]
          rintro ⟨h1, _⟩
          have hpos : 0 < (splitOnChar '-' r2).length :=
            List.length_pos.mpr (splitOnChar_ne_nil '-' r2)
          simp only [List.length_cons] at h1
          omega
        · obtain ⟨q, qs, hparts⟩ := splitOnChar_digit_other (c0 :: d2) c r2 hnod hceq
          rw [matchNums_other 0 s r2 c hceq c0 d2 htw hdw]
          simp only [Bool.false_eq_true, false_iff]
          rintro ⟨_, hall⟩
          have hm : ((c0 :: d2) ++ c :: q) ∈ splitOnChar '-' s := by
            rw [hs_eq, hparts]; exact List.mem_cons_self _ _
          have hbad := (hall _ hm).2
          simp [hc] at hbad
  | succ k2 ih =>
    intro s
    rcases htw : s.takeWhile Char.isDigit with _ | ⟨c0, d2⟩
    · rw [matchNums_empty_run (k2 + 1) s htw]
      simp only [Bool.false_eq_true, false_iff]
      rintro ⟨_, hall⟩
      exact run_empty_bad s htw hall
    · have hdig : ∀ a ∈ c0 :: d2, Char.isDigit a = true :=
        fun a ha => mem_takeWhile_pred _ s a (htw ▸ ha)
      have hnod : '-' ∉ (c0 :: d2) := fun hm => absurd (hdig '-' hm) (by decide)
      have hs_eq : s = (c0 :: d2) ++ s.dropWhile Char.isDigit := by
        conv_lhs => rw [← List.takeWhile_append_dropWhile (p := Char.isDigit) (l := s)]
        rw [htw]
      rcases hdw : s.dropWhile Char.isDigit with _ | ⟨c, r2⟩
      · rw [hdw, List.append_nil] at hs_eq
        have hparts : splitOnChar '-' s = [c0 :: d2] := by
          rw [hs_eq]; exact splitOnChar_no_sep _ _ hnod
        rw [matchNums_run_end (k2 + 1) s c0 d2 htw hdw, hparts]
        constructor
        · intro _
          refine ⟨by simp, ?_⟩
          intro p hp
          simp only [List.mem_singleton] at hp
          subst hp
          exact ⟨by simp, List.all_eq_true.mpr hdig⟩
        · intro _; rfl
      · have hc : Char.isDigit c = false := dropWhile_head_not _ s c r2 hdw
        rw [hdw] at hs_eq
        by_cases hceq : c = '-'
        · subst hceq
          have hparts : splitOnChar '-' s = (c0 :: d2) :: splitOnChar '-' r2 := by
            rw [hs_eq]; exact splitOnChar_digit_dash _ _ hdig
          rw [matchNums_dash_succ k2 s r2 c0 d2 htw hdw, ih r2, hparts]
          constructor
          · rintro ⟨h1, h2⟩
            refine ⟨by simp only [List.length_cons]; omega, ?_⟩
            intro p hp
            rcases List.mem_cons.mp hp with hp | hp
            · subst hp
              exact ⟨by simp, List.all_eq_true.mpr hdig⟩
            · exact h2 p hp
          · rintro ⟨h1, h2⟩
            refine ⟨by simp only [List.length_cons] at h1; omega, ?_⟩
            intro p hp
            exact h2 p (List.mem_cons_of_mem _ hp)
        · obtain ⟨q, qs, hparts⟩ := splitOnChar_digit_other (c0 :: d2) c r2 hnod hceq
          rw [matchNums_other (k2 + 1) s r2 c hceq c0 d2 htw hdw]
          simp only [Bool.false_eq_true, false_iff]
          rintro ⟨_, hall⟩
          have hm : ((c0 :: d2) ++ c :: q) ∈ splitOnChar '-' s := by
            rw [hs_eq, hparts]; exact List.mem_cons_self _ _
          have hbad := (hall _ hm).2
          simp [hc] at hbad

/-- `int(token)` on a nonempty digit token yields its numeric value. -/
theorem parseIntTok_digits (p : List Char) (hne : p ≠ [])
    (hall : p.all Char.isDigit = true) :
    parseIntTok p = some (digitsVal p 0) := by
  rcases p with _ | ⟨c, rest⟩
  · exact absurd rfl hne
  · have hc : Char.isDigit c = true := by
      rw [List.all_cons, Bool.and_eq_true] at hall
      exact hall.1
    have hcd : c ≠ '-' := by intro h; rw [h] at hc; exact absurd hc (by decide)
    have hcp : c ≠ '+' := by intro h; rw [h] at hc; exact absurd hc (by decide)
    simp only [parseIntTok]
    rw [if_neg hcd, if_neg hcp, if_pos hall]

/-- `map(int, tokens)` on nonempty digit tokens yields their values. -/
theorem mapInts_digits : ∀ l : List (List Char),
    (∀ p ∈ l, p ≠ [] ∧ p.all Char.isDigit = true) →
    mapInts l = .ok (l.map fun p => digitsVal p 0) := by
  intro l
  induction l with
  | nil => intro _; rfl
  | cons p rest ih =>
    intro hall
    simp only [mapInts]
    rw [parseIntTok_digits p (hall p (by simp)).1 (hall p (by simp)).2,
      ih fun q hq => hall q (by simp [hq])]
    rfl

/-- C5 amended.  A filename suffix is recognised exactly when the portion
of the stem after its last underscore — the whole stem when there is no
underscore — is a run of 1–5 dash-separated integers; the CSS-shorthand
expansions hold as claimed for 1–4 numbers (a 5-number run stays
unexpanded), and the default padding string `10` parses to
`[10, 10, 10, 10]`. -/
theorem c5_padding_amended :
    (∀ stem : List Char, paddingInfo stem ≠ [] ↔ amendedRecognized stem) ∧
    (∀ a b c d : List Char,
      (∀ p ∈ [a, b, c, d], p ≠ [] ∧ p.all Char.isDigit = true) →
      generatePadding (.ofList [a, b, c, d]) =
        .ok [digitsVal a 0, digitsVal b 0, digitsVal c 0, digitsVal d 0]) ∧
    (∀ a b c : List Char,
      (∀ p ∈ [a, b, c], p ≠ [] ∧ p.all Char.isDigit = true) →
      generatePadding (.ofList [a, b, c]) =
        .ok [digitsVal a 0, digitsVal b 0, digitsVal c 0, digitsVal b 0]) ∧
    (∀ a b : List Char,
      (∀ p ∈ [a, b], p ≠ [] ∧ p.all Char.isDigit = true) →
      generatePadding (.ofList [a, b]) =
        .ok [digitsVal a 0, digitsVal b 0, digitsVal a 0, digitsVal b 0]) ∧
    (∀ a : List Char,
      (∀ p ∈ [a], p ≠ [] ∧ p.all Char.isDigit = true) →
      generatePadding (.ofList [a]) =
        .ok [digitsVal a 0, digitsVal a 0, digitsVal a 0, digitsVal a 0]) ∧
    generatePadding (.ofString ("10".data)) = .ok [10, 10, 10, 10] := by
  refine ⟨?_, ?_, ?_, ?_, ?_, by decide⟩
  · intro stem
    unfold amendedRecognized isIntRun
    constructor
    · intro h
      have hm : matchNums 4 (afterLastUnderscore stem) = true := by
        by_contra hm
        rw [paddingInfo, if_neg hm] at h
        exact h rfl
      obtain ⟨hlen, hall⟩ := (matchNums_iff 4 _).mp hm
      have hpos : 0 < (splitOnChar '-' (afterLastUnderscore stem)).length :=
        List.length_pos.mpr (splitOnChar_ne_nil _ _)
      exact ⟨by omega, by omega, hall⟩
    · rintro ⟨h1, h2, h3⟩
      rw [paddingInfo, if_pos ((matchNums_iff 4 _).mpr ⟨by omega, h3⟩)]
      exact splitOnChar_ne_nil _ _
  · intro a b c d hgood
    show generatePaddingList [a, b, c, d] = _
    unfold generatePaddingList
    rw [if_neg (by simp), if_neg (by simp), if_neg (by simp), if_neg (by simp)]
    rw [mapInts_digits _ hgood]
    rfl
  · intro a b c hgood
    show generatePaddingList [a, b, c] = _
    unfold generatePaddingList
    have hg : ∀ p ∈ [a, b, c] ++ [[a, b, c].getD 1 []],
        p ≠ [] ∧ p.all Char.isDigit = true := by
      intro p hp
      simp at hp
      have hmem : p = a ∨ p = b ∨ p = c := by tauto
      rcases hmem with hp2 | hp2 | hp2 <;> (subst hp2; exact hgood _ (by simp))
    rw [if_pos (by simp), mapInts_digits _ hg]
    rfl
  · intro a b hgood
    show generatePaddingList [a, b] = _
    unfold generatePaddingList
    have hg : ∀ p ∈ [a, b] ++ [a, b], p ≠ [] ∧ p.all Char.isDigit = true := by
      intro p hp
      simp at hp
      have hmem : p = a ∨ p = b := by tauto
      rcases hmem with hp2 | hp2 <;> (subst hp2; exact hgood _ (by simp))
    rw [if_neg (by simp), if_pos (by simp), mapInts_digits _ hg]
    rfl
  · intro a hgood
    show generatePaddingList [a] = _
    unfold generatePaddingList
    have hg : ∀ p ∈ [a] ++ [a] ++ [a] ++ [a], p ≠ [] ∧ p.all Char.isDigit = true := by
      intro p hp
      simp at hp
      have hmem : p = a := by tauto
      subst hmem
      exact hgood _ (by simp)
    rw [if_neg (by simp), if_neg (by simp), if_pos (by simp), mapInts_digits _ hg]
    rfl

/-- Witness for `c5_padding_amended`: suffix `_2-3` is recognised and
expands to `[2, 3, 2, 3]`. -/
theorem c5_padding_amended_witness :
    paddingInfo ("x_2-3".data) ≠ [] ∧ amendedRecognized ("x_2-3".data) ∧
    (∀ p ∈ [['2'], ['3']], p ≠ [] ∧ p.all Char.isDigit = true) ∧
    generatePadding (.ofList [['2'], ['3']]) = .ok [2, 3, 2, 3] :=
  ⟨by decide, (c5_padding_amended.1 ("x_2-3".data)).mp (by decide), by decide,
    c5_padding_amended.2.2.2.1 ['2'] ['3'] (by decide)⟩

/-- A skip-checked update that picks the smaller value, as `min`. -/
theorem if_lt_eq_min (a b : Nat) : (if b < a then b else a) = min a b := by
  rcases Nat.lt_or_ge b a with h | h
  · rw [if_pos h, Nat.min_eq_right (le_of_lt h)]
  · rw [if_neg (by omega), Nat.min_eq_left h]

/-- A skip-checked update that picks the larger value, as `max`. -/
theorem if_lt_eq_max (a b : Nat) : (if a < b then b else a) = max a b := by
  rcases Nat.lt_or_ge a b with h | h
  · rw [if_pos h, Nat.max_eq_right (le_of_lt h)]
  · rw [if_neg (by omega), Nat.max_eq_left h]

/-- Under the invariant (and `y` within a 64-bit range) the `continue`
shortcut of `Image._crop_image` only skips no-op updates. -/
theorem scanPixel_eq_cleanStep (px : Nat → Nat → RGBA) (s : ScanState) (c : Nat × Nat)
    (hinv : ScanInv s) (h2 : c.2 < MAXINT) :
    scanPixel px s c = cleanStep px s c := by
  by_cases hskip : s.miny < c.2 ∧ c.2 < s.maxy ∧ s.maxx = c.1
  · have hfound : s.minx ≤ s.maxx := by
      rcases hinv with h | h
      · exact h
      · exfalso
        rw [h] at hskip
        obtain ⟨hy1, _, _⟩ := hskip
        have hlt : MAXINT < c.2 := hy1
        omega
    obtain ⟨hy1, hy2, hx⟩ := hskip
    unfold scanPixel cleanStep
    rw [if_pos ⟨hy1, hy2, hx⟩]
    by_cases hcont : px c.1 c.2 ≠ TRANSPARENT
    · rw [if_pos hcont]
      have e1 : (if c.1 < s.minx then c.1 else s.minx) = s.minx := if_neg (by omega)
      have e2 : (if s.maxx < c.1 then c.1 else s.maxx) = s.maxx := if_neg (by omega)
      have e3 : (if c.2 < s.miny then c.2 else s.miny) = s.miny := if_neg (by omega)
      have e4 : (if s.maxy < c.2 then c.2 else s.maxy) = s.maxy := if_neg (by omega)
      rw [e1, e2, e3, e4]
    · rw [if_neg hcont]
  · unfold scanPixel cleanStep
    rw [if_neg hskip]

/-- The clean update preserves the scan invariant. -/
theorem cleanStep_inv (px : Nat → Nat → RGBA) (s : ScanState) (c : Nat × Nat)
    (hinv : ScanInv s) (h1 : c.1 < MAXINT) : ScanInv (cleanStep px s c) := by
  unfold cleanStep
  by_cases hcont : px c.1 c.2 ≠ TRANSPARENT
  · rw [if_pos hcont]
    left
    show (if c.1 < s.minx then c.1 else s.minx) ≤ (if s.maxx < c.1 then c.1 else s.maxx)
    rcases hinv with h | h
    · split_ifs <;> omega
    · subst h
      show (if c.1 < MAXINT then c.1 else MAXINT) ≤ (if 0 < c.1 then c.1 else 0)
      split_ifs <;> omega
  · rw [if_neg hcont]
    exact hinv

/-- Hence the scan with the shortcut equals the clean scan. -/
theorem foldl_scan_eq_clean (px : Nat → Nat → RGBA) :
    ∀ (coords : List (Nat × Nat)) (s : ScanState), ScanInv s →
      (∀ c ∈ coords, c.1 < MAXINT ∧ c.2 < MAXINT) →
      coords.foldl (scanPixel px) s = coords.foldl (cleanStep px) s := by
  intro coords
  induction coords with
  | nil => intro s _ _; rfl
  | cons c rest ih =>
    intro s hinv hb
    simp only [List.foldl_cons]
    rw [scanPixel_eq_cleanStep px s c hinv (hb c (by simp)).2]
    exact ih _ (cleanStep_inv px s c hinv (hb c (by simp)).1)
      fun d hd => hb d (by simp [hd])

/-- The clean scan computes, per component, the running min/max over the
content pixels. -/
theorem foldl_clean_minmax (px : Nat → Nat → RGBA) :
    ∀ (coords : List (Nat × Nat)) (s : ScanState),
      coords.foldl (cleanStep px) s =
        ⟨(coords.filter fun c => decide (px c.1 c.2 ≠ TRANSPARENT)).foldl
            (fun a c => max a c.1) s.maxx,
         (coords.filter fun c => decide (px c.1 c.2 ≠ TRANSPARENT)).foldl
            (fun a c => max a c.2) s.maxy,
         (coords.filter fun c => decide (px c.1 c.2 ≠ TRANSPARENT)).foldl
            (fun a c => min a c.1) s.minx,
         (coords.filter fun c => decide (px c.1 c.2 ≠ TRANSPARENT)).foldl
            (fun a c => min a c.2) s.miny⟩ := by
  intro coords
  induction coords with
  | nil => intro s; rfl
  | cons c rest ih =>
    intro s
    simp only [List.foldl_cons, List.filter_cons]
    by_cases hcont : px c.1 c.2 ≠ TRANSPARENT
    · have hdec : decide (px c.1 c.2 ≠ TRANSPARENT) = true := decide_eq_true hcont
      rw [hdec]
      simp only [if_true]
      have hstep : cleanStep px s c =
          ⟨max s.maxx c.1, max s.maxy c.2, min s.minx c.1, min s.miny c.2⟩ := by
        unfold cleanStep
        rw [if_pos hcont, if_lt_eq_min, if_lt_eq_min, if_lt_eq_max, if_lt_eq_max]
      rw [hstep, ih]
      simp only [List.foldl_cons]
    · have hdec : decide (px c.1 c.2 ≠ TRANSPARENT) = false :=
        decide_eq_false hcont
      rw [hdec]
      simp only [Bool.false_eq_true, if_false]
      have hstep : cleanStep px s c = s := by
        unfold cleanStep
        rw [if_neg hcont]
      rw [hstep, ih]

/-- Coordinates produced by the scan order lie within the bitmap. -/
theorem mem_colMajor_aux : ∀ (xs : List Nat) (height : Nat) (c : Nat × Nat),
    c ∈ xs.foldr (fun x acc => ((List.range height).map fun y => (x, y)) ++ acc) [] →
      c.1 ∈ xs ∧ c.2 < height := by
  intro xs
  induction xs with
  | nil => intro height c hc; simp at hc
  | cons x xs ih =>
    intro height c hc
    simp only [List.foldr_cons, List.mem_append, List.mem_map, List.mem_range] at hc
    rcases hc with ⟨y, hy, hyc⟩ | hc
    · rw [← hyc]
      exact ⟨List.mem_cons_self _ _, hy⟩
    · have := ih height c hc
      exact ⟨List.mem_cons_of_mem _ this.1, this.2⟩

/-- Membership bound for `coordsColMajor`. -/
theorem mem_coordsColMajor (width height : Nat) (c : Nat × Nat)
    (hc : c ∈ coordsColMajor width height) : c.1 < width ∧ c.2 < height := by
  have h := mem_colMajor_aux (List.range width) height c hc
  exact ⟨List.mem_range.mp h.1, h.2⟩

/-- C7 amended.  For a bitmap within 64-bit bounds that contains at least
one pixel different from the `TRANSPARENT` constant `(255, 255, 255, 0)`,
`Image._crop_image` computes exactly the tight bounding box
`[minX, minY, maxX+1, maxY+1]` of the pixels different from that constant —
a pixel is excluded exactly when it equals `(255, 255, 255, 0)`, so a fully
transparent pixel with non-white color channels counts as content. -/
theorem c7_crop_amended (px : Nat → Nat → RGBA) (width height : Nat)
    (hw : width ≤ MAXINT) (hh : height ≤ MAXINT)
    (hne : contentCoords px width height ≠ []) :
    some (cropBox px width height) = tightBox (contentCoords px width height) := by
  have hbound : ∀ c ∈ coordsColMajor width height, c.1 < MAXINT ∧ c.2 < MAXINT := by
    intro c hc
    have h := mem_coordsColMajor width height c hc
    omega
  have hfold : (coordsColMajor width height).foldl (scanPixel px) ⟨0, 0, MAXINT, MAXINT⟩
      = (coordsColMajor width height).foldl (cleanStep px) ⟨0, 0, MAXINT, MAXINT⟩ :=
    foldl_scan_eq_clean px _ _ (Or.inr rfl) hbound
  have hcomp := foldl_clean_minmax px (coordsColMajor width height) ⟨0, 0, MAXINT, MAXINT⟩
  rcases hcc : contentCoords px width height with _ | ⟨c0, cs⟩
  · exact absurd hcc hne
  · have hmem0 : c0 ∈ coordsColMajor width height := by
      have hmem : c0 ∈ contentCoords px width height := by rw [hcc]; simp
      exact List.mem_of_mem_filter hmem
    have hc0 : c0.1 < MAXINT ∧ c0.2 < MAXINT := hbound c0 hmem0
    have hccf : ((coordsColMajor width height).filter
        fun c => decide (px c.1 c.2 ≠ TRANSPARENT)) = c0 :: cs := hcc
    simp only [cropBox]
    rw [hfold, hcomp, hccf]
    simp only [List.foldl_cons, tightBox]
    rw [Nat.min_eq_right (le_of_lt hc0.1), Nat.min_eq_right (le_of_lt hc0.2),
      Nat.max_eq_right (Nat.zero_le c0.1), Nat.max_eq_right (Nat.zero_le c0.2)]

/-- Witness for `c7_crop_amended` on the concrete 1×2 bitmap. -/
theorem c7_crop_amended_witness :
    ((1 : Nat) ≤ MAXINT ∧ (2 : Nat) ≤ MAXINT ∧ contentCoords cPx 1 2 ≠ []) ∧
    some (cropBox cPx 1 2) = tightBox (contentCoords cPx 1 2) :=
  ⟨⟨by decide, by decide, by decide⟩,
    c7_crop_amended cPx 1 2 (by decide) (by decide) (by decide)⟩

end Glue
